import Mathlib

/-!
# Ray-Tracer-CPP: the rendering core of `src/main.cpp`

A shallow embedding of `hit_sphere`, `reflect`, `refract`, `ray_color` and of
the render loop and the output encoder of `main`.

Conventions of the embedding.

* `double` is idealised as an ordered field `K` that carries an exact square
  root on its non-negative elements (`ExactSqrt`); the real numbers are an
  instance.  Rounding is not modelled.
* `+inf` (the initial `closest_t`) is the top element of `WithTop K`.
* A `bool` function with output references returns an `Option` of its outputs.
* `rand01()` reads the next element of a fixed sequence `draws : ℕ → K`; the
  position in the sequence is passed explicitly.  The three draws inside
  `Vector3d(rand01(), rand01(), rand01())` are taken left to right.
* `Vector3d::normalized()` is Eigen's: a vector with positive squared norm is
  divided by its norm, any other vector is returned unchanged.
* Division is the total division of `K`, with `x / 0 = 0`, where the source
  gets an infinity or a NaN; the statements about `hit_sphere` concern rays with
  a non-zero direction, for which `2 * a ≠ 0`.
* The render loop is run by one thread, so that all draws come from one
  sequence; the `int` values `image_width`, `image_height`,
  `samples_per_pixel` and the cell indices are natural numbers without a bound,
  `depth` is an integer.  The framebuffer is a list, and the state of the loop
  also records the indices assigned so far.
* `static_cast<int>` of a `double` is the truncation towards zero, which needs
  a floor function on `K` (`FloorRing`).
-/

namespace RayTracer

/-- An ordered field with an exact square root on its non-negative elements. -/
class ExactSqrt (K : Type) [LinearOrderedField K] where
  /-- The square root, `std::sqrt`. -/
  sqrt : K → K
  /-- The root of a non-negative number is non-negative. -/
  sqrt_nonneg : ∀ x : K, 0 ≤ x → 0 ≤ sqrt x
  /-- The root of a non-negative number squares to it. -/
  mul_self_sqrt : ∀ x : K, 0 ≤ x → sqrt x * sqrt x = x

noncomputable instance instExactSqrtReal : ExactSqrt ℝ where
  sqrt := Real.sqrt
  sqrt_nonneg := fun x _ => Real.sqrt_nonneg x
  mul_self_sqrt := fun _ hx => Real.mul_self_sqrt hx

/-- Eigen's `Vector3d`. -/
structure Vector3d (K : Type) where
  x : K
  y : K
  z : K
deriving DecidableEq

namespace Vector3d

variable {K : Type} [LinearOrderedField K]

/-- Vector sum `u + v`. -/
def add (u v : Vector3d K) : Vector3d K := ⟨u.x + v.x, u.y + v.y, u.z + v.z⟩

/-- Vector difference `u - v`. -/
def sub (u v : Vector3d K) : Vector3d K := ⟨u.x - v.x, u.y - v.y, u.z - v.z⟩

/-- Opposite vector `-v`. -/
def neg (v : Vector3d K) : Vector3d K := ⟨-v.x, -v.y, -v.z⟩

/-- Scaled vector `k * v`. -/
def smul (k : K) (v : Vector3d K) : Vector3d K := ⟨k * v.x, k * v.y, k * v.z⟩

/-- Quotient `v / k` of a vector by a scalar. -/
def sdiv (v : Vector3d K) (k : K) : Vector3d K := ⟨v.x / k, v.y / k, v.z / k⟩

/-- Dot product `u.dot(v)`. -/
def dot (u v : Vector3d K) : K := u.x * v.x + u.y * v.y + u.z * v.z

/-- Squared length `v.squaredNorm()`. -/
def squaredNorm (v : Vector3d K) : K := v.dot v

/-- Component-wise product `u.cwiseProduct(v)`. -/
def cwiseProduct (u v : Vector3d K) : Vector3d K := ⟨u.x * v.x, u.y * v.y, u.z * v.z⟩

/-- Eigen's `v.normalized()`. -/
def normalized [ExactSqrt K] (v : Vector3d K) : Vector3d K :=
  if 0 < v.squaredNorm then v.sdiv (ExactSqrt.sqrt v.squaredNorm) else v

end Vector3d

/-- The source's `struct Ray`. -/
structure Ray (K : Type) where
  origin : Vector3d K
  direction : Vector3d K

/-- The point `Ray::at(t)`, `origin + t * direction`. -/
def Ray.at {K : Type} [LinearOrderedField K] (r : Ray K) (t : K) : Vector3d K :=
  r.origin.add (Vector3d.smul t r.direction)

/-- The source's `struct Sphere`. -/
structure Sphere (K : Type) where
  center : Vector3d K
  radius : K
  color : Vector3d K
  reflectivity : K
  refr_index : K
  is_metal : Bool
  is_glass : Bool

section Code

variable {K : Type} [LinearOrderedField K] [ExactSqrt K]

/-- The source's `hit_sphere`: `some (t_hit, normal_out)` when it returns `true`. -/
def hit_sphere (s : Sphere K) (r : Ray K) (t_min : K) (t_max : WithTop K) :
    Option (K × Vector3d K) :=
  let oc := r.origin.sub s.center
  let a := r.direction.dot r.direction
  let b := 2 * oc.dot r.direction
  let c := oc.dot oc - s.radius * s.radius
  let disc := b * b - 4 * a * c
  if disc < 0 then none
  else
    let sqrtd := ExactSqrt.sqrt disc
    let root := (-b - sqrtd) / (2 * a)
    if root < t_min ∨ t_max < (root : WithTop K) then
      let root := (-b + sqrtd) / (2 * a)
      if root < t_min ∨ t_max < (root : WithTop K) then none
      else some (root, ((r.at root).sub s.center).normalized)
    else some (root, ((r.at root).sub s.center).normalized)

/-- The source's `reflect`. -/
def reflect (v n : Vector3d K) : Vector3d K :=
  v.sub (Vector3d.smul (2 * v.dot n) n)

/-- The source's `refract`: `some refr_dir` when it returns `true`. -/
def refract (uv n : Vector3d K) (etai_over_etat : K) : Option (Vector3d K) :=
  let cos_theta := min (uv.neg.dot n) 1
  let r_out_perp := Vector3d.smul etai_over_etat (uv.add (Vector3d.smul cos_theta n))
  let k := 1 - r_out_perp.squaredNorm
  if k < 0 then none
  else
    let r_out_parallel := Vector3d.smul (-ExactSqrt.sqrt k) n
    some (r_out_perp.add r_out_parallel)

/-- The source's `rand01()`: the next draw and the position after it. -/
def rand01 (draws : ℕ → K) (i : ℕ) : K × ℕ := (draws i, i + 1)

/-- The locals `closest_t`, `hit_obj`, `hit_normal` of `ray_color`. -/
structure Nearest (K : Type) where
  closest_t : WithTop K
  hit_obj : Option (Sphere K)
  hit_normal : Vector3d K

/-- The body of the loop `for (const auto& s : world)` of `ray_color`. -/
def scan_step (r : Ray K) (st : Nearest K) (s : Sphere K) : Nearest K :=
  match hit_sphere s r 1e-3 st.closest_t with
  | some (t_hit, normal) => ⟨(t_hit : K), some s, normal⟩
  | none => st

/-- The loop of `ray_color` over `world`, from `closest_t = +inf` and
`hit_obj = nullptr`; `hit_normal` starts uninitialised and is read only once
`hit_obj` is set, here it starts as zero. -/
def scan (r : Ray K) (world : List (Sphere K)) : Nearest K :=
  world.foldl (scan_step r) ⟨⊤, none, ⟨0, 0, 0⟩⟩

/-- The background gradient at the end of `ray_color`. -/
def background (r : Ray K) : Vector3d K :=
  let unit_dir := r.direction.normalized
  let t := 0.5 * (unit_dir.y + 1.0)
  (Vector3d.smul (1.0 - t) ⟨1.0, 1.0, 1.0⟩).add (Vector3d.smul t ⟨0.5, 0.7, 1.0⟩)

/-- The source's `ray_color`: the radiance and the position in `draws` after the call. -/
def ray_color (draws : ℕ → K) (r : Ray K) (world : List (Sphere K)) (depth : ℤ) (i : ℕ) :
    Vector3d K × ℕ :=
  if depth ≤ 0 then (⟨0, 0, 0⟩, i)
  else
    let st := scan r world
    match st.hit_obj with
    | some obj =>
      let hit_point := r.at (st.closest_t.untop' 0)
      if obj.is_metal then
        let reflected := reflect r.direction.normalized st.hit_normal
        let u := rand01 draws i
        let v := rand01 draws u.2
        let w := rand01 draws v.2
        let scattered : Ray K :=
          ⟨hit_point, reflected.add (Vector3d.smul 0.05 ⟨u.1, v.1, w.1⟩)⟩
        let deeper := ray_color draws scattered world (depth - 1) w.2
        (obj.color.cwiseProduct deeper.1, deeper.2)
      else if obj.is_glass then
        let ref_ratio :=
          if 0 < r.direction.dot st.hit_normal then obj.refr_index else 1.0 / obj.refr_index
        match refract r.direction.normalized st.hit_normal ref_ratio with
        | some refr_dir =>
          let refracted : Ray K := ⟨hit_point, refr_dir⟩
          ray_color draws refracted world (depth - 1) i
        | none =>
          let reflected := reflect r.direction.normalized st.hit_normal
          let reflected_ray : Ray K := ⟨hit_point, reflected⟩
          ray_color draws reflected_ray world (depth - 1) i
      else
        let u := rand01 draws i
        let v := rand01 draws u.2
        let w := rand01 draws v.2
        let target := (hit_point.add st.hit_normal).add ⟨u.1, v.1, w.1⟩
        let scattered : Ray K := ⟨hit_point, target.sub hit_point⟩
        let deeper := ray_color draws scattered world (depth - 1) w.2
        (Vector3d.smul 0.5 (obj.color.cwiseProduct deeper.1), deeper.2)
    | none => (background r, i)
termination_by depth.toNat
decreasing_by all_goals omega

/-! ### Vocabulary of the specification -/

/-- Length `v.norm()` of `v`. -/
def Vector3d.norm (v : Vector3d K) : K := ExactSqrt.sqrt v.squaredNorm

/-- The discriminant `b^2 - 4ac` with `a = dir.dir`, `b = 2*oc.dir`,
`c = oc.oc - radius^2`, `oc = origin - center`. -/
def spec_disc (s : Sphere K) (r : Ray K) : K :=
  (2 * (r.origin.sub s.center).dot r.direction) * (2 * (r.origin.sub s.center).dot r.direction)
    - 4 * r.direction.dot r.direction
      * ((r.origin.sub s.center).dot (r.origin.sub s.center) - s.radius * s.radius)

/-- The smaller root `(-b - sqrt(disc))/(2a)`. -/
def spec_root_small (s : Sphere K) (r : Ray K) : K :=
  (-(2 * (r.origin.sub s.center).dot r.direction) - ExactSqrt.sqrt (spec_disc s r))
    / (2 * r.direction.dot r.direction)

/-- The larger root `(-b + sqrt(disc))/(2a)`. -/
def spec_root_large (s : Sphere K) (r : Ray K) : K :=
  (-(2 * (r.origin.sub s.center).dot r.direction) + ExactSqrt.sqrt (spec_disc s r))
    / (2 * r.direction.dot r.direction)

/-- The parameter selected by the intersection contract read with the open
interval `(t_min, t_max)`: the smaller root if it lies strictly inside, else
the larger root if it lies strictly inside, else no hit. -/
def spec_hit_open (s : Sphere K) (r : Ray K) (t_min : K) (t_max : WithTop K) : Option K :=
  if spec_disc s r < 0 then none
  else if t_min < spec_root_small s r ∧ ((spec_root_small s r : K) : WithTop K) < t_max then
    some (spec_root_small s r)
  else if t_min < spec_root_large s r ∧ ((spec_root_large s r : K) : WithTop K) < t_max then
    some (spec_root_large s r)
  else none

/-- The same selection with the closed interval `[t_min, t_max]`. -/
def spec_hit_closed (s : Sphere K) (r : Ray K) (t_min : K) (t_max : WithTop K) : Option K :=
  if spec_disc s r < 0 then none
  else if t_min ≤ spec_root_small s r ∧ ((spec_root_small s r : K) : WithTop K) ≤ t_max then
    some (spec_root_small s r)
  else if t_min ≤ spec_root_large s r ∧ ((spec_root_large s r : K) : WithTop K) ≤ t_max then
    some (spec_root_large s r)
  else none

/-- The state `st` is what a nearest-hit query over the spheres `done` must record for
the ray `r`: nothing when every sphere is missed, and otherwise a sphere of
`done` with its `t_hit` and normal, no sphere of `done` being hit at a smaller
parameter. -/
def IsNearest (r : Ray K) (done : List (Sphere K)) (st : Nearest K) : Prop :=
  match st.hit_obj with
  | none =>
    st.closest_t = ⊤ ∧ st.hit_normal = ⟨0, 0, 0⟩
      ∧ ∀ s ∈ done, hit_sphere s r 1e-3 ⊤ = none
  | some obj =>
    obj ∈ done ∧ ∃ t n, hit_sphere obj r 1e-3 ⊤ = some (t, n)
      ∧ st.closest_t = ((t : K) : WithTop K) ∧ st.hit_normal = n
      ∧ ∀ s ∈ done, ∀ t' n', hit_sphere s r 1e-3 ⊤ = some (t', n') → t ≤ t'

/-- No ray is hit at one and the same parameter by two different spheres of
the scene. -/
def NoTies (world : List (Sphere K)) : Prop :=
  ∀ (r : Ray K) (s₁ s₂ : Sphere K) (t : K) (n₁ n₂ : Vector3d K),
    s₁ ∈ world → s₂ ∈ world → hit_sphere s₁ r 1e-3 ⊤ = some (t, n₁) →
      hit_sphere s₂ r 1e-3 ⊤ = some (t, n₂) → s₁ = s₂

/-! ### Scenes and rays of the scenarios -/

/-- The sphere of the scenario, centre `(0,0,-1)` and radius `0.5`, with the
given colour, refractive index and material flags. -/
def front_sphere (col : Vector3d K) (ri : K) (metal glass : Bool) : Sphere K :=
  ⟨⟨0, 0, -1⟩, 0.5, col, 0.0, ri, metal, glass⟩

/-- The ray of the scenario, from the origin along `(0,0,-1)`. -/
def forward_ray : Ray K := ⟨⟨0, 0, 0⟩, ⟨0, 0, -1⟩⟩

/-- The ray from the origin along `(0,-1,0)`, straight down. -/
def down_ray : Ray K := ⟨⟨0, 0, 0⟩, ⟨0, -1, 0⟩⟩

/-- The forward ray continued from its entry point `(0,0,-0.5)` into the
scenario's sphere. -/
def inner_ray : Ray K := ⟨⟨0, 0, -0.5⟩, ⟨0, 0, -1⟩⟩

/-- The ray leaving the scenario's sphere at `(0,0,-0.5)` along its normal. -/
def bounce_ray : Ray K := ⟨⟨0, 0, -0.5⟩, ⟨0, 0, 1⟩⟩

/-- The sequence of draws that is constantly zero. -/
def zero_draws : ℕ → K := fun _ => 0

/-- A sphere of radius `0.5` behind the origin, centre `(0,0,1)`. -/
def back_sphere (col : Vector3d K) (ri : K) (metal glass : Bool) : Sphere K :=
  ⟨⟨0, 0, 1⟩, 0.5, col, 0.0, ri, metal, glass⟩

/-! ### The branches of `ray_color` -/

/-- The ratio `ref_ratio` that the glass branch of `ray_color` passes to `refract`. -/
def glass_ref_ratio (r : Ray K) (hit_normal : Vector3d K) (refr_index : K) : K :=
  if 0 < r.direction.dot hit_normal then refr_index else 1.0 / refr_index

/-- The direction of the ray that the glass branch of `ray_color` traces next:
the output of `refract` when it succeeds, the reflected direction otherwise. -/
def glass_direction (r : Ray K) (hit_normal : Vector3d K) (refr_index : K) : Vector3d K :=
  match refract r.direction.normalized hit_normal (glass_ref_ratio r hit_normal refr_index) with
  | some refr_dir => refr_dir
  | none => reflect r.direction.normalized hit_normal

/-- The direction of the ray that the metal branch of `ray_color` traces next,
with the draws taken from position `i`. -/
def metal_direction (draws : ℕ → K) (r : Ray K) (hit_normal : Vector3d K) (i : ℕ) : Vector3d K :=
  (reflect r.direction.normalized hit_normal).add
    (Vector3d.smul 0.05 ⟨draws i, draws (i + 1), draws (i + 2)⟩)

/-- The direction `target - hit_point` of the ray that the diffuse branch of
`ray_color` traces next, with the draws taken from position `i`. -/
def diffuse_direction (draws : ℕ → K) (hit_point hit_normal : Vector3d K) (i : ℕ) :
    Vector3d K :=
  ((hit_point.add hit_normal).add ⟨draws i, draws (i + 1), draws (i + 2)⟩).sub hit_point

/-- The source's `ray_color` with a counter: the radiance, the position in
`draws` after the call, and the number of recursive calls made during the call. -/
def ray_color_counted (draws : ℕ → K) (r : Ray K) (world : List (Sphere K)) (depth : ℤ)
    (i : ℕ) : (Vector3d K × ℕ) × ℕ :=
  if depth ≤ 0 then ((⟨0, 0, 0⟩, i), 0)
  else
    let st := scan r world
    match st.hit_obj with
    | some obj =>
      let hit_point := r.at (st.closest_t.untop' 0)
      if obj.is_metal then
        let reflected := reflect r.direction.normalized st.hit_normal
        let u := rand01 draws i
        let v := rand01 draws u.2
        let w := rand01 draws v.2
        let scattered : Ray K :=
          ⟨hit_point, reflected.add (Vector3d.smul 0.05 ⟨u.1, v.1, w.1⟩)⟩
        let deeper := ray_color_counted draws scattered world (depth - 1) w.2
        ((obj.color.cwiseProduct deeper.1.1, deeper.1.2), deeper.2 + 1)
      else if obj.is_glass then
        let ref_ratio :=
          if 0 < r.direction.dot st.hit_normal then obj.refr_index else 1.0 / obj.refr_index
        match refract r.direction.normalized st.hit_normal ref_ratio with
        | some refr_dir =>
          let refracted : Ray K := ⟨hit_point, refr_dir⟩
          let deeper := ray_color_counted draws refracted world (depth - 1) i
          (deeper.1, deeper.2 + 1)
        | none =>
          let reflected := reflect r.direction.normalized st.hit_normal
          let reflected_ray : Ray K := ⟨hit_point, reflected⟩
          let deeper := ray_color_counted draws reflected_ray world (depth - 1) i
          (deeper.1, deeper.2 + 1)
      else
        let u := rand01 draws i
        let v := rand01 draws u.2
        let w := rand01 draws v.2
        let target := (hit_point.add st.hit_normal).add ⟨u.1, v.1, w.1⟩
        let scattered : Ray K := ⟨hit_point, target.sub hit_point⟩
        let deeper := ray_color_counted draws scattered world (depth - 1) w.2
        ((Vector3d.smul 0.5 (obj.color.cwiseProduct deeper.1.1), deeper.1.2), deeper.2 + 1)
    | none => ((background r, i), 0)
termination_by depth.toNat
decreasing_by all_goals omega

/-- Two spheres that agree in every field except, possibly, `reflectivity`. -/
def SameButReflectivity (s s' : Sphere K) : Prop :=
  s.center = s'.center ∧ s.radius = s'.radius ∧ s.color = s'.color
    ∧ s.refr_index = s'.refr_index ∧ s.is_metal = s'.is_metal ∧ s.is_glass = s'.is_glass

/-- Two states of the scan that agree except, possibly, in the `reflectivity`
of the sphere they select. -/
def NearestSameButReflectivity (st st' : Nearest K) : Prop :=
  st.closest_t = st'.closest_t ∧ st.hit_normal = st'.hit_normal
    ∧ match st.hit_obj, st'.hit_obj with
      | none, none => True
      | some s, some s' => SameButReflectivity s s'
      | _, _ => False

/-- The front sphere of the scenario with a chosen `reflectivity`. -/
def front_sphere_refl (col : Vector3d K) (refl ri : K) (metal glass : Bool) : Sphere K :=
  ⟨⟨0, 0, -1⟩, 0.5, col, refl, ri, metal, glass⟩

/-! ### The render loop and the encoder of `main` -/

/-- The camera vectors `origin`, `horizontal`, `vertical` and
`lower_left_corner` of `main`. -/
structure Camera (K : Type) where
  origin : Vector3d K
  horizontal : Vector3d K
  vertical : Vector3d K
  lower_left_corner : Vector3d K

/-- The primary ray of `main` through the image-plane coordinates `(u, v)`. -/
def camera_ray (cam : Camera K) (u v : K) : Ray K :=
  ⟨cam.origin, ((cam.lower_left_corner.add (Vector3d.smul u cam.horizontal)).add
    (Vector3d.smul v cam.vertical)).sub cam.origin⟩

/-- The body of the loop `for (int s = 0; s < samples_per_pixel; ++s)` of
`main` for the pixel `(i, j)`: the state is `pixel_color` and the position in
`draws`. -/
def sample_step (draws : ℕ → K) (cam : Camera K) (world : List (Sphere K))
    (image_width image_height : ℕ) (max_depth : ℤ) (i j : ℕ) (acc : Vector3d K × ℕ) :
    Vector3d K × ℕ :=
  let a := rand01 draws acc.2
  let u := ((i : K) + a.1) / ((((image_width : ℤ) - 1 : ℤ)) : K)
  let b := rand01 draws a.2
  let v := ((j : K) + b.1) / ((((image_height : ℤ) - 1 : ℤ)) : K)
  let r := camera_ray cam u v
  let c := ray_color draws r world max_depth b.2
  (acc.1.add c.1, c.2)

/-- The sample loop of `main` for the pixel `(i, j)`, from `pixel_color = 0`
and the position `p` in `draws`. -/
def pixel_samples (draws : ℕ → K) (cam : Camera K) (world : List (Sphere K))
    (image_width image_height samples_per_pixel : ℕ) (max_depth : ℤ) (i j p : ℕ) :
    Vector3d K × ℕ :=
  (List.range samples_per_pixel).foldl
    (fun acc _ => sample_step draws cam world image_width image_height max_depth i j acc)
    (⟨0, 0, 0⟩, p)

/-- The state of the render loop: the framebuffer, the indices assigned so
far in the order of the assignments, and the position in `draws`. -/
structure RenderState (K : Type) where
  framebuffer : List (Vector3d K)
  written : List ℕ
  pos : ℕ

/-- The body of the loop over `i` of `main`: the samples of the pixel `(i, j)`
and the assignment `framebuffer[j * image_width + i] = pixel_color / samples_per_pixel`. -/
def pixel_step (draws : ℕ → K) (cam : Camera K) (world : List (Sphere K))
    (image_width image_height samples_per_pixel : ℕ) (max_depth : ℤ) (j : ℕ)
    (st : RenderState K) (i : ℕ) : RenderState K :=
  let pc := pixel_samples draws cam world image_width image_height samples_per_pixel
    max_depth i j st.pos
  ⟨st.framebuffer.set (j * image_width + i) (pc.1.sdiv (samples_per_pixel : K)),
    st.written ++ [j * image_width + i], pc.2⟩

/-- The loop `for (int i = 0; i < image_width; ++i)` of `main` for the row `j`. -/
def render_row (draws : ℕ → K) (cam : Camera K) (world : List (Sphere K))
    (image_width image_height samples_per_pixel : ℕ) (max_depth : ℤ)
    (st : RenderState K) (j : ℕ) : RenderState K :=
  (List.range image_width).foldl
    (pixel_step draws cam world image_width image_height samples_per_pixel max_depth j) st

/-- The render loop of `main`, rows from `image_height - 1` down to `0`, run
by one thread from the position `p` in `draws`, on a framebuffer of
`image_width * image_height` cells. -/
def render (draws : ℕ → K) (cam : Camera K) (world : List (Sphere K))
    (image_width image_height samples_per_pixel : ℕ) (max_depth : ℤ) (p : ℕ) :
    RenderState K :=
  (List.range image_height).reverse.foldl
    (render_row draws cam world image_width image_height samples_per_pixel max_depth)
    ⟨List.replicate (image_width * image_height) ⟨0, 0, 0⟩, [], p⟩

/-- The function `std::clamp(v, lo, hi)`. -/
def clamp (v lo hi : K) : K := if v < lo then lo else if hi < v then hi else v

/-- The conversion `static_cast<int>` of a `double`, truncation towards zero. -/
def to_int [FloorRing K] (x : K) : ℤ := if 0 ≤ x then Int.floor x else Int.ceil x

/-- One channel of the output of `main`: gamma correction, clamp, scale and
truncation. -/
def encode_channel [FloorRing K] (c : K) : ℤ :=
  to_int (255.999 * clamp (ExactSqrt.sqrt c) 0.0 0.999)

/-- The three numbers `ir`, `ig`, `ib` that `main` writes for a framebuffer cell. -/
def encode_pixel [FloorRing K] (c : Vector3d K) : ℤ × ℤ × ℤ :=
  (encode_channel c.x, encode_channel c.y, encode_channel c.z)

/-- The pixel lines that the output loop of `main` writes after the header,
rows from `image_height - 1` down to `0`. -/
def write_ppm [FloorRing K] (framebuffer : List (Vector3d K)) (image_width image_height : ℕ) :
    List (ℤ × ℤ × ℤ) :=
  (List.range image_height).reverse.flatMap fun j =>
    (List.range image_width).map fun i =>
      encode_pixel (framebuffer.getD (j * image_width + i) ⟨0, 0, 0⟩)

/-- The scene of `main`. -/
def main_world : List (Sphere K) :=
  [⟨⟨0, -100.5, -1⟩, 100, ⟨0.8, 0.8, 0.0⟩, 0.0, 1.0, false, false⟩,
    ⟨⟨0, 0, -1⟩, 0.5, ⟨0.1, 0.2, 0.5⟩, 0.0, 1.0, false, false⟩,
    ⟨⟨-1, 0, -1⟩, 0.5, ⟨0.8, 0.8, 0.8⟩, 0.0, 1.5, false, true⟩,
    ⟨⟨1, 0, -1⟩, 0.5, ⟨0.8, 0.6, 0.2⟩, 0.8, 1.0, true, false⟩]

/-- The camera of `main`. -/
def main_camera : Camera K :=
  ⟨⟨0, 0, 0⟩, ⟨4.0, 0, 0⟩, ⟨0, 2.25, 0⟩,
    (((⟨0, 0, 0⟩ : Vector3d K).sub (Vector3d.sdiv ⟨4.0, 0, 0⟩ 2)).sub
      (Vector3d.sdiv ⟨0, 2.25, 0⟩ 2)).sub ⟨0, 0, 1⟩⟩

/-- The sum `v₁ + v₂ + ...` of a list of vectors, accumulated from the left
starting from zero, as `pixel_color` is. -/
def vector_sum (l : List (Vector3d K)) : Vector3d K := l.foldl Vector3d.add ⟨0, 0, 0⟩

/-- Every component of `v` lies in `[0, 1]`. -/
def InUnitCube (v : Vector3d K) : Prop :=
  (0 ≤ v.x ∧ v.x ≤ 1) ∧ (0 ≤ v.y ∧ v.y ≤ 1) ∧ (0 ≤ v.z ∧ v.z ≤ 1)

/-- The pixels `(i, j)` in the order in which the render loop of `main`
visits them. -/
def pixel_order (image_width image_height : ℕ) : List (ℕ × ℕ) :=
  (List.range image_height).reverse.flatMap fun j =>
    (List.range image_width).map fun i => (i, j)

/-- The pixel body of the render loop run over a list of pixels `(i, j)`. -/
def render_pixels (draws : ℕ → K) (cam : Camera K) (world : List (Sphere K))
    (image_width image_height samples_per_pixel : ℕ) (max_depth : ℤ)
    (st : RenderState K) (ps : List (ℕ × ℕ)) : RenderState K :=
  ps.foldl (fun st q => pixel_step draws cam world image_width image_height
    samples_per_pixel max_depth q.2 st q.1) st

/-- No two different spheres of the scene are hit by the ray `r` at its
nearest parameter: two spheres that `hit_sphere(., r, 1e-3, +inf)` hits at one
and the same `t`, no sphere of the scene being hit at a smaller parameter, are
equal. -/
def NoTieAt (r : Ray K) (world : List (Sphere K)) : Prop :=
  ∀ (s₁ s₂ : Sphere K) (t : K) (n₁ n₂ : Vector3d K),
    s₁ ∈ world → s₂ ∈ world → hit_sphere s₁ r 1e-3 ⊤ = some (t, n₁) →
      hit_sphere s₂ r 1e-3 ⊤ = some (t, n₂) →
      (∀ s ∈ world, ∀ t' n', hit_sphere s r 1e-3 ⊤ = some (t', n') → t ≤ t') → s₁ = s₂

/-- The rays that the call `ray_color(r, world, depth)` tests against the
scene: `r` itself when `depth >= 1`, followed, when a sphere is hit, by the rays
of the recursive call on the scattered ray. -/
def ray_path (draws : ℕ → K) (r : Ray K) (world : List (Sphere K)) (depth : ℤ) (i : ℕ) :
    List (Ray K) :=
  if depth ≤ 0 then []
  else
    let st := scan r world
    match st.hit_obj with
    | some obj =>
      let hit_point := r.at (st.closest_t.untop' 0)
      if obj.is_metal then
        r :: ray_path draws ⟨hit_point, metal_direction draws r st.hit_normal i⟩ world
          (depth - 1) (i + 3)
      else if obj.is_glass then
        r :: ray_path draws ⟨hit_point, glass_direction r st.hit_normal obj.refr_index⟩ world
          (depth - 1) i
      else
        r :: ray_path draws ⟨hit_point, diffuse_direction draws hit_point st.hit_normal i⟩ world
          (depth - 1) (i + 3)
    | none => [r]
termination_by depth.toNat
decreasing_by all_goals omega

/-- The ground sphere of the scene of `main`. -/
def main_ground : Sphere K := ⟨⟨0, -100.5, -1⟩, 100, ⟨0.8, 0.8, 0.0⟩, 0.0, 1.0, false, false⟩

/-- The glass sphere of the scene of `main`. -/
def main_glass : Sphere K := ⟨⟨-1, 0, -1⟩, 0.5, ⟨0.8, 0.8, 0.8⟩, 0.0, 1.5, false, true⟩

/-- The metal sphere of the scene of `main`. -/
def main_metal : Sphere K := ⟨⟨1, 0, -1⟩, 0.5, ⟨0.8, 0.6, 0.2⟩, 0.8, 1.0, true, false⟩

end Code

end RayTracer

namespace RayTracer

section Algebra

variable {K : Type} [LinearOrderedField K]

lemma dot_self_nonneg (v : Vector3d K) : 0 ≤ v.dot v := by
  unfold Vector3d.dot
  nlinarith [mul_self_nonneg v.x, mul_self_nonneg v.y, mul_self_nonneg v.z]

lemma dot_self_pos {v : Vector3d K} (hv : v ≠ ⟨0, 0, 0⟩) : 0 < v.dot v := by
  rcases lt_or_eq_of_le (dot_self_nonneg v) with h | h
  · exact h
  · exfalso
    apply hv
    obtain ⟨x, y, z⟩ := v
    simp only [Vector3d.dot] at h
    have hx : x = 0 := by
      nlinarith [mul_self_nonneg x, mul_self_nonneg y, mul_self_nonneg z]
    have hy : y = 0 := by
      nlinarith [mul_self_nonneg x, mul_self_nonneg y, mul_self_nonneg z]
    have hz : z = 0 := by
      nlinarith [mul_self_nonneg x, mul_self_nonneg y, mul_self_nonneg z]
    rw [hx, hy, hz]

/-- Both roots solve `a t^2 + b t + c = 0` when `a` is not zero. -/
lemma root_solves_quadratic {a b c q t : K} (ha : a ≠ 0) (hq : q * q = b * b - 4 * a * c)
    (ht : t = (-b - q) / (2 * a) ∨ t = (-b + q) / (2 * a)) : a * t * t + b * t + c = 0 := by
  have h4 : 4 * a * (a * t * t + b * t + c) = 0 := by
    rcases ht with ht | ht
    · have hu : 2 * a * t = -b - q := by
        rw [ht]
        field_simp
      linear_combination (2 * a * t + (-b - q) + 2 * b) * hu + hq
    · have hu : 2 * a * t = -b + q := by
        rw [ht]
        field_simp
      linear_combination (2 * a * t + (-b + q) + 2 * b) * hu + hq
  rcases mul_eq_zero.1 h4 with h | h
  · exact absurd h (mul_ne_zero (by norm_num) ha)
  · exact h

lemma squaredNorm_at_sub (s : Sphere K) (r : Ray K) (t : K) :
    ((r.at t).sub s.center).squaredNorm =
      r.direction.dot r.direction * t * t + 2 * (r.origin.sub s.center).dot r.direction * t
        + ((r.origin.sub s.center).dot (r.origin.sub s.center) - s.radius * s.radius)
        + s.radius * s.radius := by
  simp only [Vector3d.squaredNorm, Vector3d.dot, Vector3d.sub, Vector3d.add, Vector3d.smul,
    Ray.at]
  ring

lemma neg_dot_le_one {uv n : Vector3d K} (hu : uv.squaredNorm = 1) (hn : n.squaredNorm = 1) :
    uv.neg.dot n ≤ 1 := by
  simp only [Vector3d.squaredNorm, Vector3d.dot, Vector3d.neg] at *
  nlinarith [mul_self_nonneg (uv.x + n.x), mul_self_nonneg (uv.y + n.y),
    mul_self_nonneg (uv.z + n.z)]

lemma front_forward_disc (col : Vector3d K) (ri : K) (m g : Bool) :
    spec_disc (front_sphere col ri m g) forward_ray = 1 := by
  simp only [spec_disc, front_sphere, forward_ray, Vector3d.dot, Vector3d.sub]
  norm_num

lemma forward_direction_ne : (forward_ray (K := K)).direction ≠ ⟨0, 0, 0⟩ := by
  simp [forward_ray]

lemma min_neg_dot_unit {uv n : Vector3d K} (hu : uv.squaredNorm = 1) (hn : n.squaredNorm = 1) :
    min (uv.neg.dot n) 1 = -(uv.dot n) := by
  rw [min_eq_left (neg_dot_le_one hu hn)]
  simp only [Vector3d.dot, Vector3d.neg]
  ring

lemma dot_sq_le_one {uv n : Vector3d K} (hu : uv.squaredNorm = 1) (hn : n.squaredNorm = 1) :
    uv.dot n * uv.dot n ≤ 1 := by
  have h1 : uv.neg.dot n ≤ 1 := neg_dot_le_one hu hn
  have h2 : uv.dot n ≤ 1 := by
    simp only [Vector3d.squaredNorm, Vector3d.dot] at *
    nlinarith [mul_self_nonneg (uv.x - n.x), mul_self_nonneg (uv.y - n.y),
      mul_self_nonneg (uv.z - n.z)]
  have h3 : uv.neg.dot n = -(uv.dot n) := by
    simp only [Vector3d.dot, Vector3d.neg]
    ring
  rw [h3] at h1
  nlinarith

/-- The part `r_perp` of the refracted direction is orthogonal to a unit normal. -/
lemma r_perp_dot_normal (uv : Vector3d K) {n : Vector3d K} (eta : K) (hn : n.squaredNorm = 1) :
    (Vector3d.smul eta (uv.add (Vector3d.smul (-(uv.dot n)) n))).dot n = 0 := by
  simp only [Vector3d.squaredNorm, Vector3d.dot, Vector3d.smul, Vector3d.add] at *
  linear_combination (-eta * (uv.x * n.x + uv.y * n.y + uv.z * n.z)) * hn

lemma r_perp_squaredNorm {uv n : Vector3d K} (eta : K) (hu : uv.squaredNorm = 1)
    (hn : n.squaredNorm = 1) :
    (Vector3d.smul eta (uv.add (Vector3d.smul (-(uv.dot n)) n))).squaredNorm
      = eta * eta * (1 - uv.dot n * uv.dot n) := by
  simp only [Vector3d.squaredNorm, Vector3d.dot, Vector3d.smul, Vector3d.add] at *
  linear_combination (eta * eta) * hu
    + (eta * eta * (uv.x * n.x + uv.y * n.y + uv.z * n.z)
      * (uv.x * n.x + uv.y * n.y + uv.z * n.z)) * hn

lemma reflect_squaredNorm (v : Vector3d K) {n : Vector3d K} (hn : n.squaredNorm = 1) :
    (v.sub (Vector3d.smul (2 * v.dot n) n)).squaredNorm = v.squaredNorm := by
  simp only [Vector3d.squaredNorm, Vector3d.dot, Vector3d.smul, Vector3d.sub] at *
  linear_combination (4 * (v.x * n.x + v.y * n.y + v.z * n.z)
    * (v.x * n.x + v.y * n.y + v.z * n.z)) * hn

lemma reflect_dot_normal (v : Vector3d K) {n : Vector3d K} (hn : n.squaredNorm = 1) :
    (v.sub (Vector3d.smul (2 * v.dot n) n)).dot n = -(v.dot n) := by
  simp only [Vector3d.squaredNorm, Vector3d.dot, Vector3d.smul, Vector3d.sub] at *
  linear_combination (-2 * (v.x * n.x + v.y * n.y + v.z * n.z)) * hn

/-- The quotient of a sum of squares: `|v / q|^2 = |v|^2 / q^2`. -/
lemma sdiv_squaredNorm (v : Vector3d K) {q : K} (hq : q ≠ 0) :
    (v.sdiv q).squaredNorm = v.squaredNorm / (q * q) := by
  simp only [Vector3d.squaredNorm, Vector3d.dot, Vector3d.sdiv]
  field_simp

lemma sdiv_dot (v n : Vector3d K) (q : K) : (v.sdiv q).dot n = v.dot n / q := by
  simp only [Vector3d.dot, Vector3d.sdiv]
  ring

/-! ### The cells of the framebuffer -/

lemma cell_lt {w h i j : ℕ} (hi : i < w) (hj : j < h) : j * w + i < w * h := by
  have h1 : j * w + i < (j + 1) * w := by
    rw [Nat.add_mul, Nat.one_mul]
    exact Nat.add_lt_add_left hi _
  have h2 : (j + 1) * w ≤ h * w := Nat.mul_le_mul_right w hj
  rw [Nat.mul_comm w h]
  exact lt_of_lt_of_le h1 h2

lemma cell_inj {w i j i' j' : ℕ} (hi : i < w) (hi' : i' < w)
    (h : j * w + i = j' * w + i') : i = i' ∧ j = j' := by
  have hw : 0 < w := lt_of_le_of_lt (Nat.zero_le i) hi
  have h1 : (j * w + i) % w = i := by
    rw [Nat.add_comm, Nat.add_mul_mod_self_right, Nat.mod_eq_of_lt hi]
  have h2 : (j' * w + i') % w = i' := by
    rw [Nat.add_comm, Nat.add_mul_mod_self_right, Nat.mod_eq_of_lt hi']
  have hii : i = i' := by rw [← h1, ← h2, h]
  subst hii
  exact ⟨rfl, Nat.eq_of_mul_eq_mul_right hw (Nat.add_right_cancel h)⟩

lemma cell_surj {w h k : ℕ} (hk : k < w * h) : ∃ i j, i < w ∧ j < h ∧ k = j * w + i := by
  have hw : 0 < w := by
    rcases Nat.eq_zero_or_pos w with h0 | h0
    · rw [h0, Nat.zero_mul] at hk
      exact absurd hk (Nat.not_lt_zero k)
    · exact h0
  refine ⟨k % w, k / w, Nat.mod_lt k hw, ?_, ?_⟩
  · exact Nat.div_lt_of_lt_mul hk
  · rw [Nat.mul_comm]
    exact (Nat.div_add_mod k w).symm

lemma pixel_order_cells (w h : ℕ) :
    ((pixel_order w h).map fun q => q.2 * w + q.1)
      = (List.range h).reverse.flatMap fun j => (List.range w).map fun i => j * w + i := by
  unfold pixel_order
  rw [List.map_flatMap]
  congr 1
  funext j
  rw [List.map_map]
  rfl

/-- The cells visited by the render loop are the cells `0 .. w*h - 1`, each once. -/
lemma pixel_order_cells_perm (w h : ℕ) :
    ((pixel_order w h).map fun q => q.2 * w + q.1).Perm (List.range (w * h)) := by
  rw [pixel_order_cells]
  induction h with
  | zero => simp
  | succ h ih =>
    rw [List.range_succ, List.reverse_append, List.reverse_singleton, List.singleton_append,
      List.flatMap_cons, Nat.mul_succ, List.range_add]
    have hrow : (List.range w).map (fun i => h * w + i)
        = (List.range w).map (fun x => w * h + x) := by
      apply List.map_congr_left
      intro i _
      rw [Nat.mul_comm]
    rw [hrow]
    exact List.perm_append_comm.trans (List.Perm.append_right _ ih)

lemma mem_pixel_order {w h : ℕ} {q : ℕ × ℕ} : q ∈ pixel_order w h ↔ q.1 < w ∧ q.2 < h := by
  unfold pixel_order
  simp only [List.mem_flatMap, List.mem_reverse, List.mem_range, List.mem_map]
  constructor
  · rintro ⟨j, hj, i, hi, rfl⟩
    exact ⟨hi, hj⟩
  · rintro ⟨hi, hj⟩
    exact ⟨q.2, hj, q.1, hi, rfl⟩

lemma clamp_of_nonneg {q : K} (hq : 0 ≤ q) : clamp q 0.0 0.999 = min q 0.999 := by
  have h0 : ¬ q < 0.0 := by
    have : (0.0 : K) = 0 := by norm_num
    rw [this]
    exact not_lt.2 hq
  unfold clamp
  rw [if_neg h0]
  split_ifs with h
  · exact (min_eq_right h.le).symm
  · exact (min_eq_left (not_lt.1 h)).symm

lemma to_int_of_nonneg [FloorRing K] {x : K} (hx : 0 ≤ x) : to_int x = Int.floor x := by
  unfold to_int
  rw [if_pos hx]

lemma flatMap_rows_length {α : Type} (w : ℕ) (g : ℕ → ℕ → α) (l : List ℕ) :
    (l.flatMap fun j => (List.range w).map (g j)).length = l.length * w := by
  induction l with
  | nil => simp
  | cons a rest ih => simp [List.flatMap_cons, ih, Nat.succ_mul, Nat.add_comm]

lemma floor_top_channel [FloorRing K] : Int.floor ((255.999 : K) * 0.999) = 255 := by
  rw [Int.floor_eq_iff]
  constructor <;> norm_num

/-! ### The unit cube -/

lemma inUnitCube_zero : InUnitCube (⟨0, 0, 0⟩ : Vector3d K) := by
  unfold InUnitCube
  norm_num

lemma inUnitCube_cwiseProduct {a b : Vector3d K} (ha : InUnitCube a) (hb : InUnitCube b) :
    InUnitCube (a.cwiseProduct b) := by
  obtain ⟨⟨ax0, ax1⟩, ⟨ay0, ay1⟩, ⟨az0, az1⟩⟩ := ha
  obtain ⟨⟨bx0, bx1⟩, ⟨by0, by1⟩, ⟨bz0, bz1⟩⟩ := hb
  exact ⟨⟨mul_nonneg ax0 bx0, mul_le_one₀ ax1 bx0 bx1⟩,
    ⟨mul_nonneg ay0 by0, mul_le_one₀ ay1 by0 by1⟩,
    ⟨mul_nonneg az0 bz0, mul_le_one₀ az1 bz0 bz1⟩⟩

lemma inUnitCube_half {a : Vector3d K} (ha : InUnitCube a) :
    InUnitCube (Vector3d.smul 0.5 a) := by
  obtain ⟨⟨ax0, ax1⟩, ⟨ay0, ay1⟩, ⟨az0, az1⟩⟩ := ha
  simp only [InUnitCube, Vector3d.smul]
  norm_num
  refine ⟨⟨?_, ?_⟩, ⟨?_, ?_⟩, ⟨?_, ?_⟩⟩ <;> linarith

/-- The left-to-right sum of vectors of the unit cube, started at `acc`, has
each component between that of `acc` and that of `acc` plus the number of
vectors. -/
lemma foldl_add_bounds (l : List (Vector3d K)) (hl : ∀ v ∈ l, InUnitCube v) :
    ∀ acc : Vector3d K,
      (acc.x ≤ (l.foldl Vector3d.add acc).x ∧ (l.foldl Vector3d.add acc).x ≤ acc.x + l.length)
        ∧ (acc.y ≤ (l.foldl Vector3d.add acc).y
          ∧ (l.foldl Vector3d.add acc).y ≤ acc.y + l.length)
        ∧ (acc.z ≤ (l.foldl Vector3d.add acc).z
          ∧ (l.foldl Vector3d.add acc).z ≤ acc.z + l.length) := by
  induction l with
  | nil => exact fun acc => by simp
  | cons v rest ih =>
    intro acc
    obtain ⟨⟨vx0, vx1⟩, ⟨vy0, vy1⟩, ⟨vz0, vz1⟩⟩ := hl v (List.mem_cons_self v rest)
    obtain ⟨⟨hx0, hx1⟩, ⟨hy0, hy1⟩, ⟨hz0, hz1⟩⟩ :=
      ih (fun u hu => hl u (List.mem_cons_of_mem v hu)) (acc.add v)
    have ex : (acc.add v).x = acc.x + v.x := rfl
    have ey : (acc.add v).y = acc.y + v.y := rfl
    have ez : (acc.add v).z = acc.z + v.z := rfl
    rw [ex] at hx0 hx1
    rw [ey] at hy0 hy1
    rw [ez] at hz0 hz1
    simp only [List.foldl_cons, List.length_cons, Nat.cast_add, Nat.cast_one]
    refine ⟨⟨?_, ?_⟩, ⟨?_, ?_⟩, ⟨?_, ?_⟩⟩ <;> linarith

/-- The mean of `n >= 1` vectors of the unit cube lies in the unit cube. -/
lemma inUnitCube_mean (l : List (Vector3d K)) (hl : ∀ v ∈ l, InUnitCube v) (hn : 1 ≤ l.length) :
    InUnitCube ((vector_sum l).sdiv (l.length : K)) := by
  obtain ⟨⟨hx0, hx1⟩, ⟨hy0, hy1⟩, ⟨hz0, hz1⟩⟩ := foldl_add_bounds l hl ⟨0, 0, 0⟩
  have hpos : (0 : K) < (l.length : K) := by exact_mod_cast hn
  simp only [zero_add] at hx1 hy1 hz1
  simp only [InUnitCube, Vector3d.sdiv, vector_sum]
  refine ⟨⟨div_nonneg hx0 hpos.le, (div_le_one hpos).2 hx1⟩,
    ⟨div_nonneg hy0 hpos.le, (div_le_one hpos).2 hy1⟩,
    ⟨div_nonneg hz0 hpos.le, (div_le_one hpos).2 hz1⟩⟩

lemma unit_z_squaredNorm : (⟨0, 0, 1⟩ : Vector3d K).squaredNorm = 1 := by
  simp only [Vector3d.squaredNorm, Vector3d.dot]
  norm_num

lemma neg_unit_z_squaredNorm : (⟨0, 0, -1⟩ : Vector3d K).squaredNorm = 1 := by
  simp only [Vector3d.squaredNorm, Vector3d.dot]
  norm_num

lemma inner_exit_dot : 0 < (inner_ray (K := K)).direction.dot ⟨0, 0, -1⟩ := by
  simp only [inner_ray, Vector3d.dot]
  norm_num

lemma main_world_colors : ∀ s ∈ (main_world : List (Sphere K)), InUnitCube s.color := by
  intro s hs
  simp only [main_world, List.mem_cons, List.mem_singleton, List.not_mem_nil, or_false] at hs
  rcases hs with rfl | rfl | rfl | rfl <;> simp only [InUnitCube] <;> norm_num

lemma front_sameBut (col : Vector3d K) (refl ri : K) (m g : Bool) :
    List.Forall₂ SameButReflectivity [front_sphere col ri m g]
      [front_sphere_refl col refl ri m g] :=
  List.Forall₂.cons ⟨rfl, rfl, rfl, rfl, rfl, rfl⟩ List.Forall₂.nil

/-! ### The scene of `main` and the rays of the scenario -/

lemma main_world_eq : (main_world : List (Sphere K))
    = [main_ground, front_sphere ⟨0.1, 0.2, 0.5⟩ 1.0 false false, main_glass, main_metal] := rfl

lemma main_ground_forward_disc : spec_disc (main_ground (K := K)) forward_ray < 0 := by
  simp only [spec_disc, main_ground, forward_ray, Vector3d.dot, Vector3d.sub]
  norm_num

lemma main_glass_forward_disc : spec_disc (main_glass (K := K)) forward_ray < 0 := by
  simp only [spec_disc, main_glass, forward_ray, Vector3d.dot, Vector3d.sub]
  norm_num

lemma main_metal_forward_disc : spec_disc (main_metal (K := K)) forward_ray < 0 := by
  simp only [spec_disc, main_metal, forward_ray, Vector3d.dot, Vector3d.sub]
  norm_num

lemma main_ground_bounce_disc : spec_disc (main_ground (K := K)) bounce_ray < 0 := by
  simp only [spec_disc, main_ground, bounce_ray, Vector3d.dot, Vector3d.sub]
  norm_num

lemma main_glass_bounce_disc : spec_disc (main_glass (K := K)) bounce_ray < 0 := by
  simp only [spec_disc, main_glass, bounce_ray, Vector3d.dot, Vector3d.sub]
  norm_num

lemma main_metal_bounce_disc : spec_disc (main_metal (K := K)) bounce_ray < 0 := by
  simp only [spec_disc, main_metal, bounce_ray, Vector3d.dot, Vector3d.sub]
  norm_num

end Algebra

section Proofs

variable {K : Type} [LinearOrderedField K] [ExactSqrt K]

/-! ## The square root -/

lemma sqrt_eq_of_mul_self {x y : K} (hy : 0 ≤ y) (h : y * y = x) : ExactSqrt.sqrt x = y := by
  have hx : 0 ≤ x := h ▸ mul_self_nonneg y
  have h1 := ExactSqrt.sqrt_nonneg x hx
  have h2 := ExactSqrt.mul_self_sqrt x hx
  exact (mul_self_inj h1 hy).1 (h2.trans h.symm)

lemma sqrt_mul_self_of_nonneg {y : K} (hy : 0 ≤ y) : ExactSqrt.sqrt (y * y) = y :=
  sqrt_eq_of_mul_self hy rfl

/-! ## The intersection test -/

lemma hit_sphere_unfold (s : Sphere K) (r : Ray K) (t_min : K) (t_max : WithTop K) :
    hit_sphere s r t_min t_max =
      if spec_disc s r < 0 then none
      else if spec_root_small s r < t_min ∨ t_max < ((spec_root_small s r : K) : WithTop K) then
        if spec_root_large s r < t_min ∨ t_max < ((spec_root_large s r : K) : WithTop K) then none
        else some (spec_root_large s r,
          ((r.at (spec_root_large s r)).sub s.center).normalized)
      else some (spec_root_small s r,
        ((r.at (spec_root_small s r)).sub s.center).normalized) := rfl

lemma spec_root_small_le_large (s : Sphere K) (r : Ray K) (hd : 0 ≤ spec_disc s r) :
    spec_root_small s r ≤ spec_root_large s r := by
  unfold spec_root_small spec_root_large
  have hq := ExactSqrt.sqrt_nonneg (spec_disc s r) hd
  have ha : 0 ≤ 2 * r.direction.dot r.direction := by
    have := dot_self_nonneg r.direction
    linarith
  apply div_le_div_of_nonneg_right _ ha
  linarith

/-- What a successful `hit_sphere` returns. -/
lemma hit_sphere_some {s : Sphere K} {r : Ray K} {t_min : K} {t_max : WithTop K}
    {t : K} {n : Vector3d K} (h : hit_sphere s r t_min t_max = some (t, n)) :
    0 ≤ spec_disc s r ∧ (t = spec_root_small s r ∨ t = spec_root_large s r)
      ∧ t_min ≤ t ∧ (t : WithTop K) ≤ t_max
      ∧ n = ((r.at t).sub s.center).normalized := by
  rw [hit_sphere_unfold] at h
  split_ifs at h with h1 h2 h3
  · simp only [Option.some.injEq, Prod.mk.injEq] at h
    obtain ⟨rfl, rfl⟩ := h
    push_neg at h3
    exact ⟨not_lt.1 h1, Or.inr rfl, h3.1, h3.2, rfl⟩
  · simp only [Option.some.injEq, Prod.mk.injEq] at h
    obtain ⟨rfl, rfl⟩ := h
    push_neg at h2
    exact ⟨not_lt.1 h1, Or.inl rfl, h2.1, h2.2, rfl⟩

lemma hit_point_on_sphere {s : Sphere K} {r : Ray K} {t_min : K} {t_max : WithTop K}
    {t : K} {n : Vector3d K} (hdir : r.direction ≠ ⟨0, 0, 0⟩)
    (h : hit_sphere s r t_min t_max = some (t, n)) :
    ((r.at t).sub s.center).squaredNorm = s.radius * s.radius := by
  obtain ⟨hd, ht, -, -, -⟩ := hit_sphere_some h
  have ha : r.direction.dot r.direction ≠ 0 := (dot_self_pos hdir).ne.symm
  have hq := ExactSqrt.mul_self_sqrt (spec_disc s r) hd
  have := root_solves_quadratic ha (c := (r.origin.sub s.center).dot (r.origin.sub s.center)
    - s.radius * s.radius) hq ht
  rw [squaredNorm_at_sub, this, zero_add]

lemma normalized_of_squaredNorm {v : Vector3d K} {ρ : K} (hρ : 0 < ρ)
    (hv : v.squaredNorm = ρ * ρ) : v.normalized = v.sdiv ρ := by
  unfold Vector3d.normalized
  rw [hv, if_pos (mul_pos hρ hρ), sqrt_mul_self_of_nonneg hρ.le]

lemma hit_normal_eq {s : Sphere K} {r : Ray K} {t_min : K} {t_max : WithTop K}
    {t : K} {n : Vector3d K} (hrad : 0 < s.radius) (hdir : r.direction ≠ ⟨0, 0, 0⟩)
    (h : hit_sphere s r t_min t_max = some (t, n)) :
    n = ((r.at t).sub s.center).sdiv s.radius := by
  obtain ⟨-, -, -, -, hn⟩ := hit_sphere_some h
  rw [hn]
  exact normalized_of_squaredNorm hrad (hit_point_on_sphere hdir h)

/-- The test against `t_max` is the test against `+inf` followed by the
comparison of the `t_hit` found with `t_max`. -/
lemma hit_sphere_bounded (s : Sphere K) (r : Ray K) (t_min : K) (t_max : WithTop K) :
    hit_sphere s r t_min t_max =
      match hit_sphere s r t_min ⊤ with
      | some (t, n) => if (t : WithTop K) ≤ t_max then some (t, n) else none
      | none => none := by
  rw [hit_sphere_unfold, hit_sphere_unfold s r t_min ⊤]
  by_cases hd : spec_disc s r < 0
  · simp [hd]
  · have hle := spec_root_small_le_large s r (not_lt.1 hd)
    have hle' : ((spec_root_small s r : K) : WithTop K) ≤ ((spec_root_large s r : K) : WithTop K) :=
      WithTop.coe_le_coe.2 hle
    simp only [hd, if_false, not_top_lt, or_false]
    by_cases h1 : spec_root_small s r < t_min
    · simp only [h1, true_or, if_true]
      by_cases h2 : spec_root_large s r < t_min
      · simp [h2]
      · by_cases h3 : t_max < ((spec_root_large s r : K) : WithTop K)
        · simp [h2, h3, not_le.2 h3]
        · simp [h2, h3, not_lt.1 h3]
    · by_cases h3 : t_max < ((spec_root_small s r : K) : WithTop K)
      · have h4 : t_max < ((spec_root_large s r : K) : WithTop K) := lt_of_lt_of_le h3 hle'
        simp [h1, h3, h4, not_le.2 h3]
      · simp [h1, h3, not_lt.1 h3]

/-- C4: when `hit_sphere` reports a hit on a ray with non-zero direction, the
point `origin + t_hit*direction` lies on the sphere:
`|ray.at(t_hit) - center|^2 = radius^2`. -/
theorem hit_sphere_point_on_sphere (s : Sphere K) (r : Ray K) (t_min : K) (t_max : WithTop K)
    (t_hit : K) (normal : Vector3d K) (hdir : r.direction ≠ ⟨0, 0, 0⟩)
    (h : hit_sphere s r t_min t_max = some (t_hit, normal)) :
    r.at t_hit = ⟨r.origin.x + t_hit * r.direction.x, r.origin.y + t_hit * r.direction.y,
        r.origin.z + t_hit * r.direction.z⟩
      ∧ ((r.at t_hit).sub s.center).squaredNorm = s.radius * s.radius :=
  ⟨rfl, hit_point_on_sphere hdir h⟩

/-- C5: for a sphere of positive radius and a ray with non-zero direction, the
normal returned with a hit is `(hit_point - center)/radius`, has length 1 and
has a positive dot product with `hit_point - center`. -/
theorem hit_sphere_normal_unit_outward (s : Sphere K) (r : Ray K) (t_min : K)
    (t_max : WithTop K) (t_hit : K) (normal : Vector3d K) (hrad : 0 < s.radius)
    (hdir : r.direction ≠ ⟨0, 0, 0⟩)
    (h : hit_sphere s r t_min t_max = some (t_hit, normal)) :
    normal = ((r.at t_hit).sub s.center).sdiv s.radius
      ∧ normal.norm = 1
      ∧ 0 < ((r.at t_hit).sub s.center).dot normal := by
  have hn := hit_normal_eq hrad hdir h
  have hp := hit_point_on_sphere hdir h
  have hr0 : s.radius ≠ 0 := hrad.ne.symm
  simp only [Vector3d.squaredNorm, Vector3d.dot] at hp
  refine ⟨hn, ?_, ?_⟩
  · apply sqrt_eq_of_mul_self zero_le_one
    rw [hn]
    simp only [Vector3d.squaredNorm, Vector3d.dot, Vector3d.sdiv]
    field_simp
    linear_combination -hp
  · rw [hn]
    simp only [Vector3d.dot, Vector3d.sdiv]
    have : ((r.at t_hit).sub s.center).x * (((r.at t_hit).sub s.center).x / s.radius)
        + ((r.at t_hit).sub s.center).y * (((r.at t_hit).sub s.center).y / s.radius)
        + ((r.at t_hit).sub s.center).z * (((r.at t_hit).sub s.center).z / s.radius)
        = s.radius := by
      field_simp
      linear_combination hp
    rw [this]
    exact hrad

/-- C6, amended: `hit_sphere` reports no hit when `disc < 0`; otherwise it
returns the smaller root if `t_min <= root <= t_max`, else the larger root if
it satisfies the same two bounds, else no hit; every returned `t_hit` has
`t_min <= t_hit <= t_max`.  The ray has a non-zero direction, so that `2a` is
not zero. -/
theorem hit_sphere_root_selection (s : Sphere K) (r : Ray K) (t_min : K) (t_max : WithTop K)
    (_hdir : r.direction ≠ ⟨0, 0, 0⟩) :
    (hit_sphere s r t_min t_max).map Prod.fst = spec_hit_closed s r t_min t_max
      ∧ (spec_disc s r < 0 → hit_sphere s r t_min t_max = none)
      ∧ ∀ t_hit normal, hit_sphere s r t_min t_max = some (t_hit, normal) →
          t_min ≤ t_hit ∧ (t_hit : WithTop K) ≤ t_max := by
  refine ⟨?_, ?_, ?_⟩
  · rw [hit_sphere_unfold]
    unfold spec_hit_closed
    by_cases hd : spec_disc s r < 0
    · simp [hd]
    · by_cases h1 : spec_root_small s r < t_min
      · by_cases h2 : spec_root_large s r < t_min
        · simp [hd, h1, h2, not_le.2 h1, not_le.2 h2]
        · by_cases h3 : t_max < ((spec_root_large s r : K) : WithTop K)
          · simp [hd, h1, h2, h3, not_le.2 h1, not_le.2 h3]
          · simp [hd, h1, h2, h3, not_le.2 h1, not_lt.1 h2, not_lt.1 h3]
      · by_cases h3 : t_max < ((spec_root_small s r : K) : WithTop K)
        · have hle := spec_root_small_le_large s r (not_lt.1 hd)
          have h4 : t_max < ((spec_root_large s r : K) : WithTop K) :=
            lt_of_lt_of_le h3 (WithTop.coe_le_coe.2 hle)
          simp [hd, h1, h3, h4, not_le.2 h3, not_le.2 h4]
        · simp [hd, h1, h3, not_lt.1 h1, not_lt.1 h3]
  · intro hd
    rw [hit_sphere_unfold, if_pos hd]
  · intro t_hit normal h
    obtain ⟨-, -, h1, h2, -⟩ := hit_sphere_some h
    exact ⟨h1, h2⟩

/-! ## The nearest-hit scan -/

lemma isNearest_init (r : Ray K) : IsNearest r [] ⟨⊤, none, ⟨0, 0, 0⟩⟩ := by
  simp [IsNearest]

/-- One iteration of the loop keeps `IsNearest`. -/
lemma isNearest_step (r : Ray K) (done : List (Sphere K)) (st : Nearest K) (s : Sphere K)
    (h : IsNearest r done st) : IsNearest r (done ++ [s]) (scan_step r st s) := by
  unfold scan_step
  rw [hit_sphere_bounded]
  cases hs : hit_sphere s r 1e-3 ⊤ with
  | none =>
    simp only
    unfold IsNearest at h ⊢
    cases ho : st.hit_obj with
    | none =>
      rw [ho] at h
      simp only
      refine ⟨h.1, h.2.1, ?_⟩
      intro s' hs'
      rcases List.mem_append.1 hs' with h' | h'
      · exact h.2.2 s' h'
      · rw [List.mem_singleton.1 h']
        exact hs
    | some obj =>
      rw [ho] at h
      simp only
      obtain ⟨hmem, t, n, hhit, hct, hn, hmin⟩ := h
      refine ⟨List.mem_append_left _ hmem, t, n, hhit, hct, hn, ?_⟩
      intro s' hs' t' n' hhit'
      rcases List.mem_append.1 hs' with h' | h'
      · exact hmin s' h' t' n' hhit'
      · rw [List.mem_singleton.1 h', hs] at hhit'
        exact absurd hhit' (by simp)
  | some p =>
    obtain ⟨t, n⟩ := p
    simp only
    by_cases hle : ((t : K) : WithTop K) ≤ st.closest_t
    · rw [if_pos hle]
      simp only [IsNearest]
      refine ⟨by simp, t, n, hs, rfl, rfl, ?_⟩
      intro s' hs' t' n' hhit'
      rcases List.mem_append.1 hs' with h' | h'
      · unfold IsNearest at h
        cases ho : st.hit_obj with
        | none =>
          rw [ho] at h
          rw [h.2.2 s' h'] at hhit'
          exact absurd hhit' (by simp)
        | some obj =>
          rw [ho] at h
          obtain ⟨-, t₀, n₀, -, hct, -, hmin⟩ := h
          rw [hct] at hle
          exact le_trans (WithTop.coe_le_coe.1 hle) (hmin s' h' t' n' hhit')
      · rw [List.mem_singleton.1 h', hs] at hhit'
        simp only [Option.some.injEq, Prod.mk.injEq] at hhit'
        exact hhit'.1.le
    · rw [if_neg hle]
      simp only
      unfold IsNearest at h ⊢
      cases ho : st.hit_obj with
      | none =>
        rw [ho] at h
        exact absurd (h.1 ▸ le_top) hle
      | some obj =>
        rw [ho] at h
        simp only
        obtain ⟨hmem, t₀, n₀, hhit, hct, hn, hmin⟩ := h
        refine ⟨List.mem_append_left _ hmem, t₀, n₀, hhit, hct, hn, ?_⟩
        intro s' hs' t' n' hhit'
        rcases List.mem_append.1 hs' with h' | h'
        · exact hmin s' h' t' n' hhit'
        · rw [List.mem_singleton.1 h', hs] at hhit'
          simp only [Option.some.injEq, Prod.mk.injEq] at hhit'
          rw [hct] at hle
          rw [← hhit'.1]
          exact (lt_of_not_le fun hc => hle (WithTop.coe_le_coe.2 hc)).le

lemma isNearest_foldl (r : Ray K) (world done : List (Sphere K)) (st : Nearest K)
    (h : IsNearest r done st) : IsNearest r (done ++ world) (world.foldl (scan_step r) st) := by
  induction world generalizing done st with
  | nil => simpa using h
  | cons s rest ih =>
    have := ih (done ++ [s]) (scan_step r st s) (isNearest_step r done st s h)
    simpa [List.append_assoc] using this

lemma isNearest_scan (r : Ray K) (world : List (Sphere K)) : IsNearest r world (scan r world) := by
  have := isNearest_foldl r world [] _ (isNearest_init r)
  simpa [scan] using this

/-! ## The depth bound and the background -/

lemma scan_step_miss (r : Ray K) (st : Nearest K) (s : Sphere K)
    (h : hit_sphere s r 1e-3 st.closest_t = none) : scan_step r st s = st := by
  simp [scan_step, h]

lemma foldl_scan_step_all_miss (r : Ray K) (world : List (Sphere K)) (st : Nearest K)
    (h : ∀ s ∈ world, hit_sphere s r 1e-3 st.closest_t = none) :
    world.foldl (scan_step r) st = st := by
  induction world with
  | nil => rfl
  | cons s rest ih =>
    have hs := h s (List.mem_cons_self s rest)
    rw [List.foldl_cons, scan_step_miss r st s hs]
    exact ih fun s' hs' => h s' (List.mem_cons_of_mem s hs')

/-- C1: with `depth <= 0`, `ray_color` returns the zero vector whatever the ray and
the scene are, and it leaves the position in the sequence of draws where it was. -/
theorem ray_color_depth_nonpos (draws : ℕ → K) (r : Ray K) (world : List (Sphere K))
    (depth : ℤ) (i : ℕ) (h : depth ≤ 0) :
    ray_color draws r world depth i = (⟨0, 0, 0⟩, i) := by
  rw [ray_color]
  simp [h]

/-- With `depth >= 1`, a ray that misses every sphere gets the background
gradient and consumes no draw. -/
lemma ray_color_miss_background (draws : ℕ → K) (r : Ray K) (world : List (Sphere K))
    (depth : ℤ) (i : ℕ) (hd : 1 ≤ depth)
    (hmiss : ∀ s ∈ world, hit_sphere s r 1e-3 ⊤ = none) :
    ray_color draws r world depth i = (background r, i) := by
  have hscan : scan r world = ⟨⊤, none, ⟨0, 0, 0⟩⟩ :=
    foldl_scan_step_all_miss r world _ hmiss
  have hd' : ¬ depth ≤ 0 := by omega
  rw [ray_color]
  simp only [hd', hscan, if_false]

/-- C2: with `depth >= 1`, when `hit_sphere(s, r, 1e-3, +inf)` fails for every
sphere of the scene, `ray_color` returns `(1-t)*(1,1,1) + t*(0.5,0.7,1.0)` with
`t = 0.5*(y + 1)`, `y` the second component of the normalised direction; depth
and draws do not occur in the value, and no draw is consumed. -/
theorem ray_color_all_miss (draws : ℕ → K) (r : Ray K) (world : List (Sphere K))
    (depth : ℤ) (i : ℕ) (hd : 1 ≤ depth)
    (hmiss : ∀ s ∈ world, hit_sphere s r 1e-3 ⊤ = none) :
    ray_color draws r world depth i =
      (⟨(1 - 0.5 * (r.direction.normalized.y + 1)) * 1
          + 0.5 * (r.direction.normalized.y + 1) * 0.5,
        (1 - 0.5 * (r.direction.normalized.y + 1)) * 1
          + 0.5 * (r.direction.normalized.y + 1) * 0.7,
        (1 - 0.5 * (r.direction.normalized.y + 1)) * 1
          + 0.5 * (r.direction.normalized.y + 1) * 1⟩, i) := by
  rw [ray_color_miss_background draws r world depth i hd hmiss]
  simp only [background, Vector3d.add, Vector3d.smul]
  norm_num

/-! ## The nearest hit and the order of the scene -/

/-- C7: for a ray with non-zero direction the scan of `ray_color` ends with a
hit exactly when `hit_sphere(s, ray, 1e-3, +inf)` succeeds for some sphere of
the scene; the selected sphere is a sphere of the scene, the final `closest_t`
is the `t_hit` that `hit_sphere(., ray, 1e-3, +inf)` returns for it, and no
sphere of the scene is hit at a smaller `t_hit`. -/
theorem scan_finds_nearest (r : Ray K) (world : List (Sphere K))
    (_hdir : r.direction ≠ ⟨0, 0, 0⟩) :
    ((scan r world).hit_obj ≠ none ↔ ∃ s ∈ world, hit_sphere s r 1e-3 ⊤ ≠ none)
      ∧ ∀ obj, (scan r world).hit_obj = some obj →
          obj ∈ world ∧ ∃ t n, hit_sphere obj r 1e-3 ⊤ = some (t, n)
            ∧ (scan r world).closest_t = ((t : K) : WithTop K)
            ∧ (scan r world).hit_normal = n
            ∧ ∀ s ∈ world, ∀ t' n', hit_sphere s r 1e-3 ⊤ = some (t', n') → t ≤ t' := by
  have h := isNearest_scan r world
  unfold IsNearest at h
  constructor
  · constructor
    · intro hne
      cases ho : (scan r world).hit_obj with
      | none => exact absurd ho hne
      | some obj =>
        rw [ho] at h
        obtain ⟨hmem, t, n, hhit, -⟩ := h
        exact ⟨obj, hmem, by simp [hhit]⟩
    · rintro ⟨s, hs, hhit⟩ ho
      rw [ho] at h
      exact hhit (h.2.2 s hs)
  · intro obj ho
    rw [ho] at h
    exact h

/-- The scan of a scene without ties does not depend on the order of the scene. -/
lemma scan_perm {world world' : List (Sphere K)} (hties : NoTies world)
    (hperm : world.Perm world') (r : Ray K) : scan r world = scan r world' := by
  have h := isNearest_scan r world
  have h' := isNearest_scan r world'
  unfold IsNearest at h h'
  rcases hst : scan r world with ⟨ct, ho, hn⟩
  rcases hst' : scan r world' with ⟨ct', ho', hn'⟩
  rw [hst] at h
  rw [hst'] at h'
  cases ho with
  | none =>
    cases ho' with
    | none =>
      simp only at h h'
      rw [h.1, h.2.1, h'.1, h'.2.1]
    | some obj' =>
      simp only at h h'
      obtain ⟨hmem, t, n, hhit, -⟩ := h'
      rw [h.2.2 obj' (hperm.mem_iff.2 hmem)] at hhit
      exact absurd hhit (by simp)
  | some obj =>
    cases ho' with
    | none =>
      simp only at h h'
      obtain ⟨hmem, t, n, hhit, -⟩ := h
      rw [h'.2.2 obj (hperm.mem_iff.1 hmem)] at hhit
      exact absurd hhit (by simp)
    | some obj' =>
      simp only at h h'
      obtain ⟨hmem, t, n, hhit, hct, hnn, hmin⟩ := h
      obtain ⟨hmem', t', n', hhit', hct', hnn', hmin'⟩ := h'
      have htt : t = t' :=
        le_antisymm (hmin obj' (hperm.mem_iff.2 hmem') t' n' hhit')
          (hmin' obj (hperm.mem_iff.1 hmem) t n hhit)
      subst htt
      have hobj : obj = obj' := hties r obj obj' t n n' hmem (hperm.mem_iff.2 hmem') hhit hhit'
      subst hobj
      rw [hhit] at hhit'
      simp only [Option.some.injEq, Prod.mk.injEq, true_and] at hhit'
      rw [hct, hct', hnn, hnn', hhit']

lemma ray_color_perm_aux {world world' : List (Sphere K)} (hties : NoTies world)
    (hperm : world.Perm world') (draws : ℕ → K) (m : ℕ) :
    ∀ (depth : ℤ), depth.toNat = m → ∀ (r : Ray K) (i : ℕ),
      ray_color draws r world depth i = ray_color draws r world' depth i := by
  induction m with
  | zero =>
    intro depth hdep r i
    have h0 : depth ≤ 0 := Int.toNat_eq_zero.1 hdep
    rw [ray_color, ray_color]
    simp [h0]
  | succ m ih =>
    intro depth hdep r i
    have hpos : ¬ depth ≤ 0 := by omega
    have hrec : ∀ (r' : Ray K) (j : ℕ),
        ray_color draws r' world (depth - 1) j = ray_color draws r' world' (depth - 1) j :=
      ih (depth - 1) (by omega)
    conv_lhs => rw [ray_color]
    conv_rhs => rw [ray_color]
    simp only [hpos, if_false, scan_perm hties hperm r, hrec]

/-- A scene in which no ray at all is hit at the same `t_hit` by two different
spheres: `ray_color` returns the same radiance, and leaves the sequence of
draws at the same position, on the scene and on every permutation of it. -/
theorem ray_color_perm_of_noTies (world world' : List (Sphere K)) (hties : NoTies world)
    (hperm : world.Perm world') (draws : ℕ → K) (r : Ray K) (depth : ℤ) (i : ℕ) :
    ray_color draws r world depth i = ray_color draws r world' depth i :=
  ray_color_perm_aux hties hperm draws depth.toNat depth rfl r i

/-! ## The background gradient -/

lemma normalized_y_bounds (v : Vector3d K) : -1 ≤ v.normalized.y ∧ v.normalized.y ≤ 1 := by
  have hyy : v.y * v.y ≤ v.squaredNorm := by
    simp only [Vector3d.squaredNorm, Vector3d.dot]
    nlinarith [mul_self_nonneg v.x, mul_self_nonneg v.z]
  unfold Vector3d.normalized
  split_ifs with h
  · have hq0 := ExactSqrt.sqrt_nonneg v.squaredNorm h.le
    have hqq := ExactSqrt.mul_self_sqrt v.squaredNorm h.le
    have hq : 0 < ExactSqrt.sqrt v.squaredNorm := by
      rcases lt_or_eq_of_le hq0 with h' | h'
      · exact h'
      · rw [← h', mul_zero] at hqq
        exact absurd hqq h.ne
    simp only [Vector3d.sdiv]
    rw [le_div_iff₀ hq, div_le_iff₀ hq]
    constructor <;> nlinarith
  · have h0 : v.y * v.y ≤ 0 := le_trans hyy (not_lt.1 h)
    have hy : v.y = 0 := by
      have := mul_self_nonneg v.y
      exact mul_self_eq_zero.1 (le_antisymm h0 this)
    rw [hy]
    constructor <;> norm_num

/-- C3, amended: with `depth >= 1`, the radiance of a ray that misses every
sphere has its red component in `[0.5,1]`, its green component in `[0.7,1]` and
its blue component in `[0.7,1]`. -/
theorem miss_radiance_bounds (draws : ℕ → K) (r : Ray K) (world : List (Sphere K))
    (depth : ℤ) (i : ℕ) (hd : 1 ≤ depth)
    (hmiss : ∀ s ∈ world, hit_sphere s r 1e-3 ⊤ = none) :
    (0.5 ≤ (ray_color draws r world depth i).1.x ∧ (ray_color draws r world depth i).1.x ≤ 1)
      ∧ (0.7 ≤ (ray_color draws r world depth i).1.y
        ∧ (ray_color draws r world depth i).1.y ≤ 1)
      ∧ (0.7 ≤ (ray_color draws r world depth i).1.z
        ∧ (ray_color draws r world depth i).1.z ≤ 1) := by
  obtain ⟨h1, h2⟩ := normalized_y_bounds r.direction
  rw [ray_color_miss_background draws r world depth i hd hmiss]
  simp only [background, Vector3d.add, Vector3d.smul]
  norm_num
  refine ⟨⟨?_, ?_⟩, ⟨?_, ?_⟩⟩ <;> linarith

/-! ## Refraction with ratio one -/

/-- With ratio one and unit vectors, `refract` succeeds and removes from `uv`
its component along `n` and the absolute value of that component. -/
lemma refract_ratio_one {uv n : Vector3d K} (hu : uv.squaredNorm = 1)
    (hn : n.squaredNorm = 1) :
    refract uv n 1 = some (uv.sub (Vector3d.smul (uv.dot n + |uv.dot n|) n)) := by
  have hcos : min (uv.neg.dot n) 1 = -(uv.dot n) := by
    rw [min_eq_left (neg_dot_le_one hu hn)]
    simp only [Vector3d.dot, Vector3d.neg]
    ring
  have hk : 1 - (Vector3d.smul 1 (uv.add (Vector3d.smul (-(uv.dot n)) n))).squaredNorm
      = |uv.dot n| * |uv.dot n| := by
    rw [abs_mul_abs_self]
    simp only [Vector3d.squaredNorm, Vector3d.dot, Vector3d.smul, Vector3d.add] at *
    linear_combination (-1 : K) * hu
      + (-(uv.x * n.x + uv.y * n.y + uv.z * n.z) * (uv.x * n.x + uv.y * n.y + uv.z * n.z)) * hn
  unfold refract
  simp only [hcos, hk]
  rw [if_neg (not_lt.2 (mul_self_nonneg _)), sqrt_mul_self_of_nonneg (abs_nonneg _)]
  congr 1
  simp only [Vector3d.smul, Vector3d.add, Vector3d.sub, Vector3d.mk.injEq]
  refine ⟨?_, ?_, ?_⟩ <;> ring

/-- At an entry hit, `uv . n <= 0`, refraction with ratio one returns `uv`. -/
lemma refract_ratio_one_entry {uv n : Vector3d K} (hu : uv.squaredNorm = 1)
    (hn : n.squaredNorm = 1) (hd : uv.dot n ≤ 0) : refract uv n 1 = some uv := by
  rw [refract_ratio_one hu hn, abs_of_nonpos hd]
  congr 1
  obtain ⟨x, y, z⟩ := uv
  simp [Vector3d.smul, Vector3d.sub]

/-- At an exit hit, `uv . n >= 0`, refraction with ratio one returns the
mirror image `reflect(uv, n)`. -/
lemma refract_ratio_one_exit {uv n : Vector3d K} (hu : uv.squaredNorm = 1)
    (hn : n.squaredNorm = 1) (hd : 0 ≤ uv.dot n) : refract uv n 1 = some (reflect uv n) := by
  rw [refract_ratio_one hu hn, abs_of_nonneg hd]
  congr 1
  simp only [reflect, Vector3d.smul, Vector3d.sub, Vector3d.mk.injEq]
  refine ⟨?_, ?_, ?_⟩ <;> ring

/-! ## The scenarios -/

lemma sqrt_one : ExactSqrt.sqrt (1 : K) = 1 := sqrt_eq_of_mul_self zero_le_one (one_mul 1)

/-- Value of `hit_sphere` once the discriminant, its root and the two roots of the
quadratic are known. -/
lemma hit_sphere_eval {s : Sphere K} {r : Ray K} {D q l u : K} (t_min : K)
    (t_max : WithTop K) (hD : spec_disc s r = D) (hq0 : 0 ≤ q) (hqq : q * q = D)
    (hlo : (-(2 * (r.origin.sub s.center).dot r.direction) - q)
      / (2 * r.direction.dot r.direction) = l)
    (hhi : (-(2 * (r.origin.sub s.center).dot r.direction) + q)
      / (2 * r.direction.dot r.direction) = u) :
    hit_sphere s r t_min t_max =
      if l < t_min ∨ t_max < ((l : K) : WithTop K) then
        if u < t_min ∨ t_max < ((u : K) : WithTop K) then none
        else some (u, ((r.at u).sub s.center).normalized)
      else some (l, ((r.at l).sub s.center).normalized) := by
  have hs : ExactSqrt.sqrt (spec_disc s r) = q := by
    rw [hD]
    exact sqrt_eq_of_mul_self hq0 hqq
  have h1 : spec_root_small s r = l := by rw [spec_root_small, hs, hlo]
  have h2 : spec_root_large s r = u := by rw [spec_root_large, hs, hhi]
  have h3 : ¬ spec_disc s r < 0 := by
    rw [hD, ← hqq]
    exact not_lt.2 (mul_self_nonneg q)
  rw [hit_sphere_unfold, if_neg h3, h1, h2]

lemma front_forward_normal (col : Vector3d K) (ri : K) (m g : Bool) :
    (((forward_ray (K := K)).at 0.5).sub (front_sphere col ri m g).center).normalized
      = ⟨0, 0, 1⟩ := by
  have hv : ((forward_ray (K := K)).at 0.5).sub (front_sphere col ri m g).center
      = ⟨0, 0, 0.5⟩ := by
    simp only [front_sphere, forward_ray, Vector3d.add, Vector3d.smul, Vector3d.sub, Ray.at]
    norm_num
  rw [hv, normalized_of_squaredNorm (ρ := 0.5) (by norm_num)
    (by simp only [Vector3d.squaredNorm, Vector3d.dot]; norm_num)]
  simp only [Vector3d.sdiv]
  norm_num

/-- The forward ray hits the front sphere at `t = 0.5` with normal `(0,0,1)`,
for every `t_min <= 0.5 <= t_max`. -/
lemma front_forward_hit (col : Vector3d K) (ri : K) (m g : Bool) (t_min : K)
    (t_max : WithTop K) (h0 : t_min ≤ 0.5) (h : ((0.5 : K) : WithTop K) ≤ t_max) :
    hit_sphere (front_sphere col ri m g) forward_ray t_min t_max = some (0.5, ⟨0, 0, 1⟩) := by
  rw [hit_sphere_eval (q := 1) (l := 0.5) (u := 1.5) t_min t_max
    (front_forward_disc col ri m g) zero_le_one (one_mul 1)
    (by simp only [front_sphere, forward_ray, Vector3d.dot, Vector3d.sub]; norm_num)
    (by simp only [front_sphere, forward_ray, Vector3d.dot, Vector3d.sub]; norm_num)]
  rw [if_neg (by simp [not_lt.2 h0, not_lt.2 h]), front_forward_normal]

/-- The downward ray misses the front sphere. -/
lemma front_down_miss (col : Vector3d K) (ri : K) (m g : Bool) (t_min : K) (t_max : WithTop K) :
    hit_sphere (front_sphere col ri m g) down_ray t_min t_max = none := by
  have hD : spec_disc (front_sphere col ri m g) (down_ray (K := K)) < 0 := by
    simp only [spec_disc, front_sphere, down_ray, Vector3d.dot, Vector3d.sub]
    norm_num
  rw [hit_sphere_unfold, if_pos hD]

/-- The ray leaving the front sphere along its normal misses it. -/
lemma front_bounce_miss (col : Vector3d K) (ri : K) (m g : Bool) :
    hit_sphere (front_sphere col ri m g) bounce_ray 1e-3 ⊤ = none := by
  rw [hit_sphere_eval (D := 1) (q := 1) (l := -1) (u := 0) 1e-3 ⊤
    (by simp only [spec_disc, front_sphere, bounce_ray, Vector3d.dot, Vector3d.sub]; norm_num)
    zero_le_one (one_mul 1)
    (by simp only [front_sphere, bounce_ray, Vector3d.dot, Vector3d.sub]; norm_num)
    (by simp only [front_sphere, bounce_ray, Vector3d.dot, Vector3d.sub]; norm_num)]
  have h1 : ((-1 : K) < 1e-3) := by norm_num
  have h2 : ((0 : K) < 1e-3) := by norm_num
  simp [h1, h2]

/-- The ray inside the front sphere leaves it at `t = 1` with normal `(0,0,-1)`. -/
lemma front_inner_hit (col : Vector3d K) (ri : K) (m g : Bool) :
    hit_sphere (front_sphere col ri m g) inner_ray 1e-3 ⊤ = some (1, ⟨0, 0, -1⟩) := by
  rw [hit_sphere_eval (D := 1) (q := 1) (l := 0) (u := 1) 1e-3 ⊤
    (by simp only [spec_disc, front_sphere, inner_ray, Vector3d.dot, Vector3d.sub]; norm_num)
    zero_le_one (one_mul 1)
    (by simp only [front_sphere, inner_ray, Vector3d.dot, Vector3d.sub]; norm_num)
    (by simp only [front_sphere, inner_ray, Vector3d.dot, Vector3d.sub]; norm_num)]
  have h1 : ((0 : K) < 1e-3) := by norm_num
  have h2 : ¬ ((1 : K) < 1e-3) := by norm_num
  have hv : ((inner_ray (K := K)).at 1).sub (front_sphere col ri m g).center
      = ⟨0, 0, -0.5⟩ := by
    simp only [front_sphere, inner_ray, Vector3d.add, Vector3d.smul, Vector3d.sub, Ray.at]
    norm_num
  simp only [h1, h2, true_or, if_true, not_top_lt, or_false, if_false]
  rw [hv, normalized_of_squaredNorm (ρ := 0.5) (by norm_num)
    (by simp only [Vector3d.squaredNorm, Vector3d.dot]; norm_num)]
  simp only [Vector3d.sdiv]
  norm_num

lemma unit_z_normalized : (⟨0, 0, 1⟩ : Vector3d K).normalized = ⟨0, 0, 1⟩ := by
  rw [normalized_of_squaredNorm (ρ := 1) zero_lt_one
    (by simp only [Vector3d.squaredNorm, Vector3d.dot]; norm_num)]
  simp [Vector3d.sdiv]

lemma neg_unit_z_normalized : (⟨0, 0, -1⟩ : Vector3d K).normalized = ⟨0, 0, -1⟩ := by
  rw [normalized_of_squaredNorm (ρ := 1) zero_lt_one
    (by simp only [Vector3d.squaredNorm, Vector3d.dot]; norm_num)]
  simp [Vector3d.sdiv]

lemma neg_unit_y_normalized : (⟨0, -1, 0⟩ : Vector3d K).normalized = ⟨0, -1, 0⟩ := by
  rw [normalized_of_squaredNorm (ρ := 1) zero_lt_one
    (by simp only [Vector3d.squaredNorm, Vector3d.dot]; norm_num)]
  simp [Vector3d.sdiv]

/-- A ray with zero direction is never reported as a hit when `t_min` is
positive: both quotients by `2a = 0` are zero. -/
lemma hit_sphere_zero_direction (s : Sphere K) (r : Ray K) (t_min : K) (t_max : WithTop K)
    (hdir : r.direction = ⟨0, 0, 0⟩) (ht : 0 < t_min) : hit_sphere s r t_min t_max = none := by
  have ha : r.direction.dot r.direction = 0 := by
    rw [hdir]
    simp [Vector3d.dot]
  have h1 : spec_root_small s r = 0 := by
    unfold spec_root_small
    rw [ha, mul_zero, div_zero]
  have h2 : spec_root_large s r = 0 := by
    unfold spec_root_large
    rw [ha, mul_zero, div_zero]
  rw [hit_sphere_unfold, h1, h2]
  simp [ht]

/-- No ray hits the front sphere and the back sphere at the same parameter. -/
lemma front_back_no_common_hit (c₁ c₂ : Vector3d K) (r : Ray K) (t : K) (n₁ n₂ : Vector3d K)
    (h₁ : hit_sphere (front_sphere c₁ 1 false false) r 1e-3 ⊤ = some (t, n₁))
    (h₂ : hit_sphere (back_sphere c₂ 1 false false) r 1e-3 ⊤ = some (t, n₂)) : False := by
  by_cases hdir : r.direction = ⟨0, 0, 0⟩
  · rw [hit_sphere_zero_direction _ r _ _ hdir (by norm_num)] at h₁
    exact absurd h₁ (by simp)
  · have e₁ := hit_point_on_sphere hdir h₁
    have e₂ := hit_point_on_sphere hdir h₂
    simp only [Vector3d.squaredNorm, Vector3d.dot, Vector3d.sub, front_sphere,
      back_sphere] at e₁ e₂
    norm_num at e₁ e₂
    nlinarith [mul_self_nonneg (r.at t).x, mul_self_nonneg (r.at t).y,
      mul_self_nonneg (r.at t).z]

lemma noTies_front_back (c₁ c₂ : Vector3d K) :
    NoTies [front_sphere c₁ 1 false false, back_sphere c₂ 1 false false] := by
  intro r s₁ s₂ t n₁ n₂ hm₁ hm₂ h₁ h₂
  simp only [List.mem_cons, List.mem_singleton, List.not_mem_nil, or_false] at hm₁ hm₂
  rcases hm₁ with rfl | rfl <;> rcases hm₂ with rfl | rfl
  · rfl
  · exact (front_back_no_common_hit c₁ c₂ r t n₁ n₂ h₁ h₂).elim
  · exact (front_back_no_common_hit c₁ c₂ r t n₂ n₁ h₂ h₁).elim
  · rfl

/-- The diffuse branch of `ray_color`. -/
lemma ray_color_diffuse (draws : ℕ → K) (r : Ray K) (world : List (Sphere K)) (depth : ℤ)
    (i : ℕ) (obj : Sphere K) (t : K) (n : Vector3d K) (hd : 1 ≤ depth)
    (hscan : scan r world = ⟨((t : K) : WithTop K), some obj, n⟩)
    (hm : obj.is_metal = false) (hg : obj.is_glass = false) :
    ray_color draws r world depth i =
      (Vector3d.smul 0.5 (obj.color.cwiseProduct
          (ray_color draws
            ⟨r.at t, (((r.at t).add n).add ⟨draws i, draws (i + 1), draws (i + 2)⟩).sub (r.at t)⟩
            world (depth - 1) (i + 3)).1),
        (ray_color draws
            ⟨r.at t, (((r.at t).add n).add ⟨draws i, draws (i + 1), draws (i + 2)⟩).sub (r.at t)⟩
            world (depth - 1) (i + 3)).2) := by
  have hd' : ¬ depth ≤ 0 := by omega
  conv_lhs => rw [ray_color]
  simp only [hd', hscan, hm, hg, rand01, if_false, WithTop.untop'_coe, Bool.false_eq_true]

lemma background_bounce : background (bounce_ray (K := K)) = ⟨0.75, 0.85, 1⟩ := by
  simp only [background, bounce_ray, unit_z_normalized, Vector3d.add, Vector3d.smul]
  norm_num

lemma background_down : background (down_ray (K := K)) = ⟨1, 1, 1⟩ := by
  simp only [background, down_ray, neg_unit_y_normalized, Vector3d.add, Vector3d.smul]
  norm_num

/-- Two diffuse front spheres in one place: the forward ray gets the colour of
the second one. -/
lemma ray_color_two_fronts (c₁ c₂ : Vector3d K) :
    ray_color zero_draws forward_ray
        [front_sphere c₁ 1 false false, front_sphere c₂ 1 false false] 2 0
      = (Vector3d.smul 0.5 (c₂.cwiseProduct ⟨0.75, 0.85, 1⟩), 3) := by
  have hscan : scan forward_ray [front_sphere c₁ 1 false false, front_sphere c₂ 1 false false]
      = ⟨((0.5 : K) : WithTop K), some (front_sphere c₂ 1 false false), ⟨0, 0, 1⟩⟩ := by
    simp only [scan, List.foldl_cons, List.foldl_nil, scan_step]
    rw [front_forward_hit c₁ 1 false false 1e-3 ⊤ (by norm_num) le_top]
    simp only
    rw [front_forward_hit c₂ 1 false false 1e-3 _ (by norm_num) le_rfl]
  have hray : (⟨(forward_ray (K := K)).at 0.5,
      ((((forward_ray (K := K)).at 0.5).add ⟨0, 0, 1⟩).add
        ⟨zero_draws 0, zero_draws (0 + 1), zero_draws (0 + 2)⟩).sub
          ((forward_ray (K := K)).at 0.5)⟩ : Ray K) = bounce_ray := by
    simp only [forward_ray, bounce_ray, zero_draws, Ray.at, Vector3d.add, Vector3d.sub,
      Vector3d.smul]
    norm_num
  rw [ray_color_diffuse zero_draws forward_ray _ 2 0 _ 0.5 ⟨0, 0, 1⟩ (by norm_num) hscan rfl rfl,
    hray]
  have hmiss : ∀ s ∈ [front_sphere c₁ 1 false false, front_sphere c₂ 1 false false],
      hit_sphere s (bounce_ray (K := K)) 1e-3 ⊤ = none := by
    intro s hs
    simp only [List.mem_cons, List.mem_singleton, List.not_mem_nil, or_false] at hs
    rcases hs with rfl | rfl <;> exact front_bounce_miss _ _ _ _
  rw [ray_color_miss_background zero_draws bounce_ray _ (2 - 1) (0 + 3) (by norm_num) hmiss,
    background_bounce]
  rfl

lemma front_forward_roots (col : Vector3d K) (ri : K) (m g : Bool) :
    spec_root_small (front_sphere col ri m g) forward_ray = 0.5
      ∧ spec_root_large (front_sphere col ri m g) forward_ray = 1.5 := by
  unfold spec_root_small spec_root_large
  rw [front_forward_disc, sqrt_one]
  simp only [front_sphere, forward_ray, Vector3d.dot, Vector3d.sub]
  constructor <;> norm_num

/-- The selection with the open interval takes the larger root when the
smaller one equals `t_min`. -/
lemma front_forward_spec_open (col : Vector3d K) (ri : K) (m g : Bool) :
    spec_hit_open (front_sphere col ri m g) forward_ray 0.5 ((2 : K) : WithTop K)
      = some 1.5 := by
  obtain ⟨h1, h2⟩ := front_forward_roots col ri m g
  have h3 : ((1.5 : K) : WithTop K) < ((2 : K) : WithTop K) :=
    WithTop.coe_lt_coe.2 (by norm_num)
  have h4 : (0.5 : K) < 1.5 := by norm_num
  unfold spec_hit_open
  rw [front_forward_disc, h1, h2, if_neg (by norm_num), if_neg (fun h => lt_irrefl _ h.1),
    if_pos ⟨h4, h3⟩]

/-- C9: the sphere with centre `(0,0,-1)` and radius `0.5` and the ray from the
origin along `(0,0,-1)`: `hit_sphere` with `t_min = 1e-3` and `t_max = +inf`
reports a hit with `t_hit = 0.5`, the hit point is `(0,0,-0.5)` and the normal
is `(0,0,1)`. -/
theorem hit_sphere_scenario (col : Vector3d K) (ri : K) (metal glass : Bool) :
    (front_sphere col ri metal glass).center = ⟨0, 0, -1⟩
      ∧ (front_sphere col ri metal glass).radius = 0.5
      ∧ (forward_ray (K := K)) = ⟨⟨0, 0, 0⟩, ⟨0, 0, -1⟩⟩
      ∧ hit_sphere (front_sphere col ri metal glass) forward_ray 1e-3 ⊤
          = some (0.5, ⟨0, 0, 1⟩)
      ∧ (forward_ray (K := K)).at 0.5 = ⟨0, 0, -0.5⟩ := by
  refine ⟨rfl, rfl, rfl, front_forward_hit col ri metal glass 1e-3 ⊤ (by norm_num) le_top, ?_⟩
  simp only [forward_ray, Ray.at, Vector3d.add, Vector3d.smul]
  norm_num

/-- C10, the exit hit: the ray that entered the glass sphere of the scenario
(`refr_index = 1.0`) at `(0,0,-0.5)` with direction `(0,0,-1)` leaves it at
`t_hit = 1` with normal `(0,0,-1)`; there `direction . normal > 0`, and
`refract` with ratio `1.0` returns `(0,0,1)`, the opposite of the incoming
direction. -/
theorem refract_exit_ratio_one_reverses :
    hit_sphere (front_sphere ⟨0.8, 0.8, 0.8⟩ 1.0 false true) (inner_ray (K := ℝ)) 1e-3 ⊤
        = some (1, ⟨0, 0, -1⟩)
      ∧ 0 < (inner_ray (K := ℝ)).direction.dot ⟨0, 0, -1⟩
      ∧ (inner_ray (K := ℝ)).direction.normalized = ⟨0, 0, -1⟩
      ∧ refract (inner_ray (K := ℝ)).direction.normalized ⟨0, 0, -1⟩ 1.0 = some ⟨0, 0, 1⟩ := by
  have hn : (inner_ray (K := ℝ)).direction.normalized = ⟨0, 0, -1⟩ := neg_unit_z_normalized
  have hu : (⟨0, 0, -1⟩ : Vector3d ℝ).squaredNorm = 1 := by
    simp only [Vector3d.squaredNorm, Vector3d.dot]
    norm_num
  have hd : (0 : ℝ) ≤ (⟨0, 0, -1⟩ : Vector3d ℝ).dot ⟨0, 0, -1⟩ := by
    simp only [Vector3d.dot]
    norm_num
  have h1 : (1.0 : ℝ) = 1 := by norm_num
  refine ⟨front_inner_hit _ _ _ _, ?_, hn, ?_⟩
  · simp only [inner_ray, Vector3d.dot]
    norm_num
  · rw [hn, h1, refract_ratio_one_exit hu hu hd]
    simp only [reflect, Vector3d.dot, Vector3d.sub, Vector3d.smul]
    norm_num

/-! ## Counterexamples -/

/-- C3 fails: the downward ray misses the front sphere and its radiance at
depth 1 is `(1,1,1)`, whose green component is above `0.7`. -/
theorem ray_color_miss_box_counterexample :
    (∀ s ∈ [front_sphere (⟨0.1, 0.2, 0.5⟩ : Vector3d ℝ) 1 false false],
        hit_sphere s down_ray 1e-3 ⊤ = none)
      ∧ ray_color zero_draws down_ray
          [front_sphere (⟨0.1, 0.2, 0.5⟩ : Vector3d ℝ) 1 false false] 1 0 = (⟨1, 1, 1⟩, 0)
      ∧ ¬ ((1 : ℝ) ≤ 0.7) := by
  have hmiss : ∀ s ∈ [front_sphere (⟨0.1, 0.2, 0.5⟩ : Vector3d ℝ) 1 false false],
      hit_sphere s down_ray 1e-3 ⊤ = none := by
    intro s hs
    rw [List.mem_singleton.1 hs]
    exact front_down_miss _ _ _ _ _ _
  refine ⟨hmiss, ?_, by norm_num⟩
  rw [ray_color_miss_background zero_draws down_ray _ 1 0 le_rfl hmiss, background_down]

/-- C6 fails: with `t_min = 0.5` and `t_max = 2` the smaller root `0.5` of the
scenario is returned although it is not inside the open interval `(0.5, 2)`,
where the selection over the open interval returns the larger root `1.5`. -/
theorem hit_sphere_open_interval_counterexample :
    (forward_ray (K := ℝ)).direction ≠ ⟨0, 0, 0⟩
      ∧ ((0.5 : ℝ) : WithTop ℝ) < ((2 : ℝ) : WithTop ℝ)
      ∧ hit_sphere (front_sphere (⟨0.1, 0.2, 0.5⟩ : Vector3d ℝ) 1 false false) forward_ray 0.5
          ((2 : ℝ) : WithTop ℝ) = some (0.5, ⟨0, 0, 1⟩)
      ∧ spec_hit_open (front_sphere (⟨0.1, 0.2, 0.5⟩ : Vector3d ℝ) 1 false false) forward_ray 0.5
          ((2 : ℝ) : WithTop ℝ) = some 1.5
      ∧ ¬ ((0.5 : ℝ) < 0.5) :=
  ⟨forward_direction_ne, WithTop.coe_lt_coe.2 (by norm_num),
    front_forward_hit _ _ _ _ _ _ le_rfl (WithTop.coe_le_coe.2 (by norm_num)),
    front_forward_spec_open _ _ _ _, lt_irrefl _⟩

/-- C8 fails: two diffuse spheres in the same place, one white and one black;
the forward ray at depth 2 gets `(0,0,0)` when the black sphere comes last and
`(0.375,0.425,0.5)` when the white sphere comes last. -/
theorem ray_color_order_counterexample :
    [front_sphere (⟨1, 1, 1⟩ : Vector3d ℝ) 1 false false,
        front_sphere (⟨0, 0, 0⟩ : Vector3d ℝ) 1 false false].Perm
      [front_sphere (⟨0, 0, 0⟩ : Vector3d ℝ) 1 false false,
        front_sphere (⟨1, 1, 1⟩ : Vector3d ℝ) 1 false false]
      ∧ ray_color zero_draws forward_ray
          [front_sphere (⟨1, 1, 1⟩ : Vector3d ℝ) 1 false false,
            front_sphere (⟨0, 0, 0⟩ : Vector3d ℝ) 1 false false] 2 0 = (⟨0, 0, 0⟩, 3)
      ∧ ray_color zero_draws forward_ray
          [front_sphere (⟨0, 0, 0⟩ : Vector3d ℝ) 1 false false,
            front_sphere (⟨1, 1, 1⟩ : Vector3d ℝ) 1 false false] 2 0
          = (⟨0.375, 0.425, 0.5⟩, 3)
      ∧ (⟨0, 0, 0⟩ : Vector3d ℝ) ≠ ⟨0.375, 0.425, 0.5⟩ := by
  refine ⟨List.Perm.swap _ _ _, ?_, ?_, ?_⟩
  · rw [ray_color_two_fronts]
    simp only [Vector3d.smul, Vector3d.cwiseProduct]
    norm_num
  · rw [ray_color_two_fronts]
    simp only [Vector3d.smul, Vector3d.cwiseProduct]
    norm_num
  · intro h
    have := congrArg Vector3d.z h
    norm_num at this

lemma front_forward_hit_top (col : Vector3d K) (ri : K) (m g : Bool) :
    hit_sphere (front_sphere col ri m g) forward_ray 1e-3 ⊤ = some (0.5, ⟨0, 0, 1⟩) :=
  front_forward_hit col ri m g 1e-3 ⊤ (by norm_num) le_top

lemma front_down_all_miss (col : Vector3d K) (ri : K) (m g : Bool) :
    ∀ s ∈ [front_sphere col ri m g], hit_sphere s down_ray 1e-3 ⊤ = none := by
  intro s hs
  rw [List.mem_singleton.1 hs]
  exact front_down_miss _ _ _ _ _ _

/-! ## Witnesses -/

/-- The depth bound at depth `-1`, a one-sphere scene and position 7. -/
theorem ray_color_depth_nonpos_witness :
    (-1 : ℤ) ≤ 0
      ∧ ray_color (zero_draws (K := ℝ)) forward_ray
          [front_sphere ⟨0.1, 0.2, 0.5⟩ 1 false false] (-1) 7 = (⟨0, 0, 0⟩, 7) :=
  ⟨by decide, ray_color_depth_nonpos _ _ _ _ _ (by decide)⟩

/-- The background formula for the downward ray, which misses the front sphere. -/
theorem ray_color_all_miss_witness :
    (1 : ℤ) ≤ 1
      ∧ (∀ s ∈ [front_sphere (⟨0.1, 0.2, 0.5⟩ : Vector3d ℝ) 1 false false],
          hit_sphere s down_ray 1e-3 ⊤ = none)
      ∧ (ray_color zero_draws down_ray
          [front_sphere (⟨0.1, 0.2, 0.5⟩ : Vector3d ℝ) 1 false false] 1 0).2 = 0 :=
  ⟨le_rfl, front_down_all_miss _ _ _ _,
    congrArg Prod.snd (ray_color_all_miss zero_draws down_ray
      [front_sphere (⟨0.1, 0.2, 0.5⟩ : Vector3d ℝ) 1 false false] 1 0 le_rfl
      (front_down_all_miss _ _ _ _))⟩

/-- The bounds of the background for the downward ray, which misses the front sphere. -/
theorem miss_radiance_bounds_witness :
    (1 : ℤ) ≤ 1
      ∧ (∀ s ∈ [front_sphere (⟨0.1, 0.2, 0.5⟩ : Vector3d ℝ) 1 false false],
          hit_sphere s down_ray 1e-3 ⊤ = none)
      ∧ 0.7 ≤ (ray_color zero_draws down_ray
          [front_sphere (⟨0.1, 0.2, 0.5⟩ : Vector3d ℝ) 1 false false] 1 0).1.y :=
  ⟨le_rfl, front_down_all_miss _ _ _ _,
    (miss_radiance_bounds zero_draws down_ray
      [front_sphere (⟨0.1, 0.2, 0.5⟩ : Vector3d ℝ) 1 false false] 1 0 le_rfl
      (front_down_all_miss _ _ _ _)).2.1.1⟩

/-- The hit point of the scenario lies on its sphere. -/
theorem hit_sphere_point_on_sphere_witness :
    (forward_ray (K := ℝ)).direction ≠ ⟨0, 0, 0⟩
      ∧ hit_sphere (front_sphere (⟨0.1, 0.2, 0.5⟩ : Vector3d ℝ) 1 false false) forward_ray
          1e-3 ⊤ = some (0.5, ⟨0, 0, 1⟩)
      ∧ (((forward_ray (K := ℝ)).at 0.5).sub
          (front_sphere (⟨0.1, 0.2, 0.5⟩ : Vector3d ℝ) 1 false false).center).squaredNorm
        = (front_sphere (⟨0.1, 0.2, 0.5⟩ : Vector3d ℝ) 1 false false).radius
          * (front_sphere (⟨0.1, 0.2, 0.5⟩ : Vector3d ℝ) 1 false false).radius :=
  ⟨forward_direction_ne, front_forward_hit_top _ _ _ _,
    (hit_sphere_point_on_sphere _ _ _ _ _ _ forward_direction_ne
      (front_forward_hit_top _ _ _ _)).2⟩

/-- The normal of the scenario has length 1. -/
theorem hit_sphere_normal_unit_outward_witness :
    0 < (front_sphere (⟨0.1, 0.2, 0.5⟩ : Vector3d ℝ) 1 false false).radius
      ∧ (forward_ray (K := ℝ)).direction ≠ ⟨0, 0, 0⟩
      ∧ hit_sphere (front_sphere (⟨0.1, 0.2, 0.5⟩ : Vector3d ℝ) 1 false false) forward_ray
          1e-3 ⊤ = some (0.5, ⟨0, 0, 1⟩)
      ∧ (⟨0, 0, 1⟩ : Vector3d ℝ).norm = 1 :=
  ⟨by norm_num [front_sphere], forward_direction_ne,
    front_forward_hit_top _ _ _ _,
    (hit_sphere_normal_unit_outward
      (front_sphere (⟨0.1, 0.2, 0.5⟩ : Vector3d ℝ) 1 false false) forward_ray 1e-3 ⊤ 0.5
      ⟨0, 0, 1⟩ (by norm_num [front_sphere]) forward_direction_ne
      (front_forward_hit_top _ _ _ _)).2.1⟩

/-- The root selection for the scenario with `t_min = 0.5` and `t_max = 2`. -/
theorem hit_sphere_root_selection_witness :
    (forward_ray (K := ℝ)).direction ≠ ⟨0, 0, 0⟩
      ∧ (hit_sphere (front_sphere (⟨0.1, 0.2, 0.5⟩ : Vector3d ℝ) 1 false false) forward_ray
          0.5 ((2 : ℝ) : WithTop ℝ)).map Prod.fst
        = spec_hit_closed (front_sphere (⟨0.1, 0.2, 0.5⟩ : Vector3d ℝ) 1 false false)
            forward_ray 0.5 ((2 : ℝ) : WithTop ℝ) :=
  ⟨forward_direction_ne, (hit_sphere_root_selection _ _ _ _ forward_direction_ne).1⟩

/-- The scan of the forward ray over a front and a back sphere. -/
theorem scan_finds_nearest_witness :
    (forward_ray (K := ℝ)).direction ≠ ⟨0, 0, 0⟩
      ∧ ((scan forward_ray [front_sphere (⟨0.1, 0.2, 0.5⟩ : Vector3d ℝ) 1 false false,
            back_sphere (⟨1, 1, 1⟩ : Vector3d ℝ) 1 false false]).hit_obj ≠ none
          ↔ ∃ s ∈ [front_sphere (⟨0.1, 0.2, 0.5⟩ : Vector3d ℝ) 1 false false,
              back_sphere (⟨1, 1, 1⟩ : Vector3d ℝ) 1 false false],
            hit_sphere s forward_ray 1e-3 ⊤ ≠ none) :=
  ⟨forward_direction_ne, (scan_finds_nearest _ _ forward_direction_ne).1⟩

/-- Swapping a front and a back sphere, which no ray hits at the same parameter. -/
theorem ray_color_perm_of_noTies_witness :
    NoTies [front_sphere (⟨0.1, 0.2, 0.5⟩ : Vector3d ℝ) 1 false false,
        back_sphere (⟨1, 1, 1⟩ : Vector3d ℝ) 1 false false]
      ∧ [front_sphere (⟨0.1, 0.2, 0.5⟩ : Vector3d ℝ) 1 false false,
          back_sphere (⟨1, 1, 1⟩ : Vector3d ℝ) 1 false false].Perm
        [back_sphere (⟨1, 1, 1⟩ : Vector3d ℝ) 1 false false,
          front_sphere (⟨0.1, 0.2, 0.5⟩ : Vector3d ℝ) 1 false false]
      ∧ ray_color zero_draws forward_ray
          [front_sphere (⟨0.1, 0.2, 0.5⟩ : Vector3d ℝ) 1 false false,
            back_sphere (⟨1, 1, 1⟩ : Vector3d ℝ) 1 false false] 2 0
        = ray_color zero_draws forward_ray
          [back_sphere (⟨1, 1, 1⟩ : Vector3d ℝ) 1 false false,
            front_sphere (⟨0.1, 0.2, 0.5⟩ : Vector3d ℝ) 1 false false] 2 0 :=
  ⟨noTies_front_back _ _, List.Perm.swap _ _ _,
    ray_color_perm_of_noTies _ _ (noTies_front_back _ _) (List.Perm.swap _ _ _) _ _ _ _⟩

/-! ## The material branches -/

/-- With `depth >= 1` and a nearest hit `obj`, `ray_color` is the branch of the
material of `obj` applied to the recursive call on the scattered ray. -/
lemma ray_color_hit (draws : ℕ → K) (r : Ray K) (world : List (Sphere K)) (depth : ℤ)
    (i : ℕ) (obj : Sphere K) (hd : 1 ≤ depth) (ho : (scan r world).hit_obj = some obj) :
    ray_color draws r world depth i =
      if obj.is_metal then
        (obj.color.cwiseProduct
            (ray_color draws ⟨r.at ((scan r world).closest_t.untop' 0),
              metal_direction draws r (scan r world).hit_normal i⟩ world (depth - 1) (i + 3)).1,
          (ray_color draws ⟨r.at ((scan r world).closest_t.untop' 0),
              metal_direction draws r (scan r world).hit_normal i⟩ world (depth - 1) (i + 3)).2)
      else if obj.is_glass then
        ray_color draws ⟨r.at ((scan r world).closest_t.untop' 0),
          glass_direction r (scan r world).hit_normal obj.refr_index⟩ world (depth - 1) i
      else
        (Vector3d.smul 0.5 (obj.color.cwiseProduct
            (ray_color draws ⟨r.at ((scan r world).closest_t.untop' 0),
              diffuse_direction draws (r.at ((scan r world).closest_t.untop' 0))
                (scan r world).hit_normal i⟩ world (depth - 1) (i + 3)).1),
          (ray_color draws ⟨r.at ((scan r world).closest_t.untop' 0),
              diffuse_direction draws (r.at ((scan r world).closest_t.untop' 0))
                (scan r world).hit_normal i⟩ world (depth - 1) (i + 3)).2) := by
  have hd' : ¬ depth ≤ 0 := by omega
  conv_lhs => rw [ray_color]
  simp only [hd', if_false, ho, rand01, metal_direction, diffuse_direction, glass_direction,
    glass_ref_ratio]
  cases hm : obj.is_metal
  · cases hg : obj.is_glass
    · simp only [Bool.false_eq_true, if_false]
    · simp only [Bool.false_eq_true, if_false, if_true]
      cases refract r.direction.normalized (scan r world).hit_normal
        (if 0 < r.direction.dot (scan r world).hit_normal then obj.refr_index
          else 1.0 / obj.refr_index) <;> rfl
  · simp only [if_true]

/-- The value of `refract`, written out. -/
lemma refract_eq (uv n : Vector3d K) (eta : K) :
    refract uv n eta =
      if 1 - (Vector3d.smul eta (uv.add (Vector3d.smul (min (uv.neg.dot n) 1) n))).squaredNorm < 0
      then none
      else some ((Vector3d.smul eta (uv.add (Vector3d.smul (min (uv.neg.dot n) 1) n))).sub
        (Vector3d.smul (ExactSqrt.sqrt (1 - (Vector3d.smul eta
          (uv.add (Vector3d.smul (min (uv.neg.dot n) 1) n))).squaredNorm)) n)) := by
  unfold refract
  simp only
  split_ifs with h
  · rfl
  · congr 1
    simp only [Vector3d.add, Vector3d.sub, Vector3d.smul, Vector3d.mk.injEq]
    refine ⟨?_, ?_, ?_⟩ <;> ring

lemma glass_direction_eq (r : Ray K) (n : Vector3d K) (ri : K) :
    glass_direction r n ri =
      (refract r.direction.normalized n
        (if 0 < r.direction.dot n then ri else 1.0 / ri)).getD
        (reflect r.direction.normalized n) := by
  unfold glass_direction glass_ref_ratio
  cases refract r.direction.normalized n (if 0 < r.direction.dot n then ri else 1.0 / ri) <;> rfl

/-- The glass branch of `ray_color`. -/
lemma ray_color_glass (draws : ℕ → K) (r : Ray K) (world : List (Sphere K)) (depth : ℤ)
    (i : ℕ) (obj : Sphere K) (hd : 1 ≤ depth) (ho : (scan r world).hit_obj = some obj)
    (hm : obj.is_metal = false) (hg : obj.is_glass = true) :
    ray_color draws r world depth i =
      ray_color draws ⟨r.at ((scan r world).closest_t.untop' 0),
        glass_direction r (scan r world).hit_normal obj.refr_index⟩ world (depth - 1) i := by
  rw [ray_color_hit draws r world depth i obj hd ho]
  simp only [hm, hg, Bool.false_eq_true, if_false, if_true]

/-- A hit recorded by the scan comes with a finite `closest_t`. -/
lemma scan_hit_finite (r : Ray K) (world : List (Sphere K)) (obj : Sphere K)
    (ho : (scan r world).hit_obj = some obj) :
    ∃ t : K, (scan r world).closest_t = ((t : K) : WithTop K)
      ∧ (scan r world).closest_t.untop' 0 = t := by
  have h := isNearest_scan r world
  unfold IsNearest at h
  rw [ho] at h
  obtain ⟨-, t, n, -, hct, -⟩ := h
  exact ⟨t, hct, by rw [hct, WithTop.untop'_coe]⟩

lemma scan_front_single (col : Vector3d K) (ri : K) (m g : Bool) :
    scan forward_ray [front_sphere col ri m g]
      = ⟨((0.5 : K) : WithTop K), some (front_sphere col ri m g), ⟨0, 0, 1⟩⟩ := by
  simp only [scan, List.foldl_cons, List.foldl_nil, scan_step]
  rw [front_forward_hit_top]

/-- C11: `refract` fails exactly when `k = 1 - |r_perp|^2 < 0`, with
`r_perp = eta*(uv + min(-uv.n, 1)*n)`, and otherwise returns
`r_perp - sqrt(k)*n`; `reflect(v, n)` is `v - 2(v.n)n`; and with `depth >= 1`
the glass branch of `ray_color` continues, in both cases, with the recursive
call on the ray from the hit point whose direction is the output of `refract`
when it succeeds and the reflected direction when it fails. -/
theorem glass_branch_refract_or_reflect (uv n v : Vector3d K) (eta : K) (draws : ℕ → K)
    (r : Ray K) (world : List (Sphere K)) (depth : ℤ) (i : ℕ) (obj : Sphere K)
    (hd : 1 ≤ depth) (ho : (scan r world).hit_obj = some obj)
    (hm : obj.is_metal = false) (hg : obj.is_glass = true) :
    (refract uv n eta = none ↔
        1 - (Vector3d.smul eta
          (uv.add (Vector3d.smul (min (uv.neg.dot n) 1) n))).squaredNorm < 0)
      ∧ (¬ 1 - (Vector3d.smul eta
            (uv.add (Vector3d.smul (min (uv.neg.dot n) 1) n))).squaredNorm < 0 →
          refract uv n eta =
            some ((Vector3d.smul eta (uv.add (Vector3d.smul (min (uv.neg.dot n) 1) n))).sub
              (Vector3d.smul (ExactSqrt.sqrt (1 - (Vector3d.smul eta
                (uv.add (Vector3d.smul (min (uv.neg.dot n) 1) n))).squaredNorm)) n)))
      ∧ reflect v n = ⟨v.x - 2 * v.dot n * n.x, v.y - 2 * v.dot n * n.y,
          v.z - 2 * v.dot n * n.z⟩
      ∧ ray_color draws r world depth i =
          ray_color draws ⟨r.at ((scan r world).closest_t.untop' 0),
            (refract r.direction.normalized (scan r world).hit_normal
              (if 0 < r.direction.dot (scan r world).hit_normal then obj.refr_index
                else 1.0 / obj.refr_index)).getD
              (reflect r.direction.normalized (scan r world).hit_normal)⟩ world (depth - 1) i := by
  refine ⟨?_, ?_, rfl, ?_⟩
  · rw [refract_eq]
    split_ifs with h
    · simp [h]
    · simp [h]
  · intro h
    rw [refract_eq, if_neg h]
  · rw [ray_color_glass draws r world depth i obj hd ho hm hg, glass_direction_eq]

/-- C12: with `depth >= 1`, when the scan selects the sphere `S`, `closest_t`
is finite and `ray_color` is the component-wise product of an attenuation `A`
with the recursive call, at `depth - 1`, on a ray that starts at the hit point
`r.at(closest_t)`; `A` is `S.color` in the metal branch, `(1,1,1)` in the
glass branch and `0.5 * S.color` in the diffuse branch, and the direction of
the scattered ray is the one of that branch. -/
theorem ray_color_attenuation (draws : ℕ → K) (r : Ray K) (world : List (Sphere K))
    (depth : ℤ) (i : ℕ) (S : Sphere K) (hd : 1 ≤ depth)
    (hS : (scan r world).hit_obj = some S) :
    ∃ (t : K) (A : Vector3d K) (scattered : Ray K) (j : ℕ),
      (scan r world).closest_t = ((t : K) : WithTop K)
        ∧ scattered.origin = r.at t
        ∧ ray_color draws r world depth i =
            (A.cwiseProduct (ray_color draws scattered world (depth - 1) j).1,
              (ray_color draws scattered world (depth - 1) j).2)
        ∧ (S.is_metal = true → A = S.color ∧ j = i + 3
            ∧ scattered.direction = metal_direction draws r (scan r world).hit_normal i)
        ∧ (S.is_metal = false → S.is_glass = true → A = ⟨1, 1, 1⟩ ∧ j = i
            ∧ scattered.direction = glass_direction r (scan r world).hit_normal S.refr_index)
        ∧ (S.is_metal = false → S.is_glass = false → A = Vector3d.smul 0.5 S.color ∧ j = i + 3
            ∧ scattered.direction
              = diffuse_direction draws (r.at t) (scan r world).hit_normal i) := by
  obtain ⟨t, hct, hut⟩ := scan_hit_finite r world S hS
  have h := ray_color_hit draws r world depth i S hd hS
  rw [hut] at h
  cases hm : S.is_metal
  · cases hg : S.is_glass
    · refine ⟨t, Vector3d.smul 0.5 S.color,
        ⟨r.at t, diffuse_direction draws (r.at t) (scan r world).hit_normal i⟩, i + 3, hct, rfl,
        ?_, by simp, by simp, by simp⟩
      rw [h]
      simp only [hm, hg, Bool.false_eq_true, if_false, Vector3d.smul, Vector3d.cwiseProduct,
        Prod.mk.injEq, Vector3d.mk.injEq, and_true]
      refine ⟨?_, ?_, ?_⟩ <;> ring
    · refine ⟨t, ⟨1, 1, 1⟩,
        ⟨r.at t, glass_direction r (scan r world).hit_normal S.refr_index⟩, i, hct, rfl,
        ?_, by simp, by simp, by simp⟩
      rw [h]
      simp only [hm, hg, Bool.false_eq_true, if_false, if_true, Vector3d.cwiseProduct, one_mul]
  · refine ⟨t, S.color, ⟨r.at t, metal_direction draws r (scan r world).hit_normal i⟩, i + 3,
      hct, rfl, ?_, by simp, by simp, by simp⟩
    rw [h]
    simp only [hm, if_true]

/-! ## The recursion depth -/

lemma ray_color_counted_fst_aux (draws : ℕ → K) (world : List (Sphere K)) (m : ℕ) :
    ∀ (depth : ℤ), depth.toNat = m → ∀ (r : Ray K) (i : ℕ),
      (ray_color_counted draws r world depth i).1 = ray_color draws r world depth i := by
  induction m with
  | zero =>
    intro depth hdep r i
    have h0 : depth ≤ 0 := Int.toNat_eq_zero.1 hdep
    rw [ray_color_counted, ray_color]
    simp [h0]
  | succ m ih =>
    intro depth hdep r i
    have hpos : ¬ depth ≤ 0 := by omega
    have hrec : ∀ (r' : Ray K) (j : ℕ),
        (ray_color_counted draws r' world (depth - 1) j).1
          = ray_color draws r' world (depth - 1) j := ih (depth - 1) (by omega)
    conv_lhs => rw [ray_color_counted]
    conv_rhs => rw [ray_color]
    simp only [hpos, if_false]
    cases (scan r world).hit_obj with
    | none => rfl
    | some obj =>
      simp only
      cases obj.is_metal
      · cases obj.is_glass
        · simp only [Bool.false_eq_true, if_false, hrec]
        · simp only [Bool.false_eq_true, if_false, if_true]
          cases refract r.direction.normalized (scan r world).hit_normal
            (if 0 < r.direction.dot (scan r world).hit_normal then obj.refr_index
              else 1.0 / obj.refr_index) <;> simp only [hrec]
      · simp only [if_true, hrec]

lemma ray_color_counted_fst (draws : ℕ → K) (r : Ray K) (world : List (Sphere K)) (depth : ℤ)
    (i : ℕ) : (ray_color_counted draws r world depth i).1 = ray_color draws r world depth i :=
  ray_color_counted_fst_aux draws world depth.toNat depth rfl r i

/-- A call of `ray_color` makes no recursive call, or one recursive call with
`depth - 1` and one more recursive call than that call makes. -/
lemma ray_color_counted_step (draws : ℕ → K) (r : Ray K) (world : List (Sphere K)) (depth : ℤ)
    (i : ℕ) :
    (ray_color_counted draws r world depth i).2 = 0
      ∨ (0 < depth ∧ ∃ (r' : Ray K) (j : ℕ), (ray_color_counted draws r world depth i).2
          = (ray_color_counted draws r' world (depth - 1) j).2 + 1) := by
  by_cases h0 : depth ≤ 0
  · left
    rw [ray_color_counted]
    simp [h0]
  · rw [ray_color_counted]
    simp only [h0, if_false]
    cases (scan r world).hit_obj with
    | none => exact Or.inl rfl
    | some obj =>
      right
      refine ⟨by omega, ?_⟩
      simp only
      cases obj.is_metal
      · cases obj.is_glass
        · exact ⟨_, _, rfl⟩
        · simp only [Bool.false_eq_true, if_false, if_true]
          cases refract r.direction.normalized (scan r world).hit_normal
            (if 0 < r.direction.dot (scan r world).hit_normal then obj.refr_index
              else 1.0 / obj.refr_index) <;> exact ⟨_, _, rfl⟩
      · exact ⟨_, _, rfl⟩

lemma ray_color_counted_le_aux (draws : ℕ → K) (world : List (Sphere K)) (m : ℕ) :
    ∀ (depth : ℤ), depth.toNat = m → ∀ (r : Ray K) (i : ℕ),
      (ray_color_counted draws r world depth i).2 ≤ m := by
  induction m with
  | zero =>
    intro depth hdep r i
    have h0 : depth ≤ 0 := Int.toNat_eq_zero.1 hdep
    rw [ray_color_counted]
    simp [h0]
  | succ m ih =>
    intro depth hdep r i
    rcases ray_color_counted_step draws r world depth i with h | ⟨-, r', j, h⟩
    · rw [h]
      exact Nat.zero_le _
    · rw [h]
      exact Nat.succ_le_succ (ih (depth - 1) (by omega) r' j)

/-- C13: `ray_color` is a total function; for `depth = d >= 0` the counted
evaluation returns the value of `ray_color` and makes at most `d` recursive
calls, whatever the scene and the draws are; each call makes either no
recursive call or exactly one, with depth `d - 1`. -/
theorem ray_color_recursion_bound (draws : ℕ → K) (r : Ray K) (world : List (Sphere K))
    (depth : ℤ) (i : ℕ) (hd : 0 ≤ depth) :
    (ray_color_counted draws r world depth i).1 = ray_color draws r world depth i
      ∧ ((ray_color_counted draws r world depth i).2 : ℤ) ≤ depth
      ∧ ((ray_color_counted draws r world depth i).2 = 0
        ∨ (0 < depth ∧ ∃ (r' : Ray K) (j : ℕ), (ray_color_counted draws r world depth i).2
            = (ray_color_counted draws r' world (depth - 1) j).2 + 1)) := by
  refine ⟨ray_color_counted_fst draws r world depth i, ?_,
    ray_color_counted_step draws r world depth i⟩
  have h := ray_color_counted_le_aux draws world depth.toNat depth rfl r i
  have h2 : ((depth.toNat : ℕ) : ℤ) = depth := Int.toNat_of_nonneg hd
  omega

/-! ## The reflectivity field -/

lemma hit_sphere_sameBut {s s' : Sphere K} (h : SameButReflectivity s s') (r : Ray K) (t_min : K)
    (t_max : WithTop K) : hit_sphere s r t_min t_max = hit_sphere s' r t_min t_max := by
  obtain ⟨hc, hr, -⟩ := h
  unfold hit_sphere
  rw [hc, hr]

lemma scan_step_sameBut {s s' : Sphere K} (h : SameButReflectivity s s') (r : Ray K)
    {st st' : Nearest K} (hst : NearestSameButReflectivity st st') :
    NearestSameButReflectivity (scan_step r st s) (scan_step r st' s') := by
  unfold scan_step
  rw [hit_sphere_sameBut h r, hst.1]
  cases hit_sphere s' r 1e-3 st'.closest_t with
  | none => exact hst
  | some p => exact ⟨rfl, rfl, h⟩

lemma foldl_scan_step_sameBut {world world' : List (Sphere K)}
    (h : List.Forall₂ SameButReflectivity world world') (r : Ray K) :
    ∀ {st st' : Nearest K}, NearestSameButReflectivity st st' →
      NearestSameButReflectivity (world.foldl (scan_step r) st)
        (world'.foldl (scan_step r) st') := by
  induction h with
  | nil => exact fun hst => hst
  | cons hs _ ih => exact fun hst => ih (scan_step_sameBut hs r hst)

lemma scan_sameBut {world world' : List (Sphere K)}
    (h : List.Forall₂ SameButReflectivity world world') (r : Ray K) :
    NearestSameButReflectivity (scan r world) (scan r world') :=
  foldl_scan_step_sameBut h r ⟨rfl, rfl, trivial⟩

/-- With `depth >= 1` and no sphere selected, `ray_color` is the background. -/
lemma ray_color_no_hit (draws : ℕ → K) (r : Ray K) (world : List (Sphere K)) (depth : ℤ)
    (i : ℕ) (hd : 1 ≤ depth) (ho : (scan r world).hit_obj = none) :
    ray_color draws r world depth i = (background r, i) := by
  have hd' : ¬ depth ≤ 0 := by omega
  rw [ray_color]
  simp only [hd', if_false, ho]

lemma ray_color_sameBut_aux {world world' : List (Sphere K)}
    (h : List.Forall₂ SameButReflectivity world world') (draws : ℕ → K) (m : ℕ) :
    ∀ (depth : ℤ), depth.toNat = m → ∀ (r : Ray K) (i : ℕ),
      ray_color draws r world depth i = ray_color draws r world' depth i := by
  induction m with
  | zero =>
    intro depth hdep r i
    have h0 : depth ≤ 0 := Int.toNat_eq_zero.1 hdep
    rw [ray_color, ray_color]
    simp [h0]
  | succ m ih =>
    intro depth hdep r i
    have hd : 1 ≤ depth := by omega
    have hrec : ∀ (r' : Ray K) (j : ℕ),
        ray_color draws r' world (depth - 1) j = ray_color draws r' world' (depth - 1) j :=
      ih (depth - 1) (by omega)
    obtain ⟨hct, hn, hobj⟩ := scan_sameBut h r
    cases ho : (scan r world).hit_obj with
    | none =>
      cases ho' : (scan r world').hit_obj with
      | none => rw [ray_color_no_hit _ _ _ _ _ hd ho, ray_color_no_hit _ _ _ _ _ hd ho']
      | some obj' =>
        rw [ho, ho'] at hobj
        exact hobj.elim
    | some obj =>
      cases ho' : (scan r world').hit_obj with
      | none =>
        rw [ho, ho'] at hobj
        exact hobj.elim
      | some obj' =>
        rw [ho, ho'] at hobj
        obtain ⟨-, -, hcol, hri, hmet, hgl⟩ := hobj
        rw [ray_color_hit _ _ _ _ _ obj hd ho, ray_color_hit _ _ _ _ _ obj' hd ho', hct, hn,
          hcol, hri, hmet, hgl]
        simp only [hrec]

/-- C14: when two scenes differ only in the `reflectivity` of their spheres,
`ray_color` returns the same radiance, and leaves the draws at the same
position, on both, for every ray, depth and sequence of draws; and the
direction of the ray scattered by a metal sphere is the reflected direction
plus `0.05` times the vector of the next three draws. -/
theorem ray_color_ignores_reflectivity (world world' : List (Sphere K))
    (h : List.Forall₂ SameButReflectivity world world') (draws : ℕ → K) (r : Ray K)
    (depth : ℤ) (i : ℕ) :
    ray_color draws r world depth i = ray_color draws r world' depth i
      ∧ ∀ obj, 1 ≤ depth → (scan r world).hit_obj = some obj → obj.is_metal = true →
          ray_color draws r world depth i =
            (obj.color.cwiseProduct (ray_color draws
                ⟨r.at ((scan r world).closest_t.untop' 0),
                  (reflect r.direction.normalized (scan r world).hit_normal).add
                    (Vector3d.smul 0.05 ⟨draws i, draws (i + 1), draws (i + 2)⟩)⟩
                world (depth - 1) (i + 3)).1,
              (ray_color draws
                ⟨r.at ((scan r world).closest_t.untop' 0),
                  (reflect r.direction.normalized (scan r world).hit_normal).add
                    (Vector3d.smul 0.05 ⟨draws i, draws (i + 1), draws (i + 2)⟩)⟩
                world (depth - 1) (i + 3)).2) := by
  refine ⟨ray_color_sameBut_aux h draws depth.toNat depth rfl r i, ?_⟩
  intro obj hd ho hm
  rw [ray_color_hit draws r world depth i obj hd ho]
  simp only [hm, if_true, metal_direction]

/-! ## Refraction of unit vectors -/

/-- A non-zero vector is normalised by dividing it by a positive number whose
square is its squared norm. -/
lemma normalized_eq_sdiv {v : Vector3d K} (hv : v ≠ ⟨0, 0, 0⟩) :
    ∃ q : K, 0 < q ∧ q * q = v.squaredNorm ∧ v.normalized = v.sdiv q := by
  have hpos : 0 < v.squaredNorm := dot_self_pos hv
  have hq0 := ExactSqrt.sqrt_nonneg v.squaredNorm hpos.le
  have hqq := ExactSqrt.mul_self_sqrt v.squaredNorm hpos.le
  refine ⟨ExactSqrt.sqrt v.squaredNorm, ?_, hqq, ?_⟩
  · rcases lt_or_eq_of_le hq0 with h | h
    · exact h
    · rw [← h, mul_zero] at hqq
      exact absurd hqq hpos.ne
  · unfold Vector3d.normalized
    rw [if_pos hpos]

lemma normalized_unit {v : Vector3d K} (hv : v ≠ ⟨0, 0, 0⟩) : v.normalized.squaredNorm = 1 := by
  obtain ⟨q, hq, hqq, hn⟩ := normalized_eq_sdiv hv
  rw [hn, sdiv_squaredNorm v hq.ne.symm, hqq]
  exact div_self (dot_self_pos hv).ne.symm

lemma normalized_dot_pos {v n : Vector3d K} (h : 0 < v.dot n) : 0 < v.normalized.dot n := by
  have hv : v ≠ ⟨0, 0, 0⟩ := by
    rintro rfl
    simp [Vector3d.dot] at h
  obtain ⟨q, hq, -, hn⟩ := normalized_eq_sdiv hv
  rw [hn, sdiv_dot]
  exact div_pos h hq

lemma normalized_dot_nonpos {v n : Vector3d K} (hv : v ≠ ⟨0, 0, 0⟩) (h : v.dot n ≤ 0) :
    v.normalized.dot n ≤ 0 := by
  obtain ⟨q, hq, -, hn⟩ := normalized_eq_sdiv hv
  rw [hn, sdiv_dot]
  exact div_nonpos_of_nonpos_of_nonneg h hq.le

/-- The value of `refract` on unit vectors, in terms of `uv . n`. -/
lemma refract_unit {uv n : Vector3d K} (eta : K) (hu : uv.squaredNorm = 1)
    (hn : n.squaredNorm = 1) :
    refract uv n eta =
      if 1 - eta * eta * (1 - uv.dot n * uv.dot n) < 0 then none
      else some ((Vector3d.smul eta (uv.add (Vector3d.smul (-(uv.dot n)) n))).sub
        (Vector3d.smul (ExactSqrt.sqrt (1 - eta * eta * (1 - uv.dot n * uv.dot n))) n)) := by
  rw [refract_eq, min_neg_dot_unit hu hn, r_perp_squaredNorm eta hu hn]

/-- A refracted direction is a unit vector whose component along the normal is
`-sqrt(k)`. -/
lemma refract_unit_output {uv n d : Vector3d K} {eta : K} (hu : uv.squaredNorm = 1)
    (hn : n.squaredNorm = 1) (h : refract uv n eta = some d) :
    0 ≤ 1 - eta * eta * (1 - uv.dot n * uv.dot n)
      ∧ d = (Vector3d.smul eta (uv.add (Vector3d.smul (-(uv.dot n)) n))).sub
          (Vector3d.smul (ExactSqrt.sqrt (1 - eta * eta * (1 - uv.dot n * uv.dot n))) n)
      ∧ d.dot n = -ExactSqrt.sqrt (1 - eta * eta * (1 - uv.dot n * uv.dot n))
      ∧ d.squaredNorm = 1 := by
  rw [refract_unit eta hu hn] at h
  split_ifs at h with hk
  have hk' : 0 ≤ 1 - eta * eta * (1 - uv.dot n * uv.dot n) := not_lt.1 hk
  have hd : d = (Vector3d.smul eta (uv.add (Vector3d.smul (-(uv.dot n)) n))).sub
      (Vector3d.smul (ExactSqrt.sqrt (1 - eta * eta * (1 - uv.dot n * uv.dot n))) n) :=
    (Option.some.inj h).symm
  have hp := r_perp_dot_normal uv eta hn
  have hpp := r_perp_squaredNorm eta hu hn
  have hqq := ExactSqrt.mul_self_sqrt _ hk'
  generalize ExactSqrt.sqrt (1 - eta * eta * (1 - uv.dot n * uv.dot n)) = q at hd hqq ⊢
  generalize Vector3d.smul eta (uv.add (Vector3d.smul (-(uv.dot n)) n)) = p at hd hp hpp
  refine ⟨hk', hd, ?_, ?_⟩
  · rw [hd]
    simp only [Vector3d.squaredNorm, Vector3d.dot, Vector3d.smul, Vector3d.sub] at *
    linear_combination hp - q * hn
  · rw [hd]
    simp only [Vector3d.squaredNorm, Vector3d.dot, Vector3d.smul, Vector3d.sub] at *
    linear_combination hpp - 2 * q * hp + q * q * hn + hqq

/-- With a ratio in `[0,1]`, `refract` succeeds on unit vectors. -/
lemma refract_unit_isSome {uv n : Vector3d K} {eta : K} (hu : uv.squaredNorm = 1)
    (hn : n.squaredNorm = 1) (h0 : 0 ≤ eta) (h1 : eta ≤ 1) : refract uv n eta ≠ none := by
  rw [refract_unit eta hu hn]
  have hd := dot_sq_le_one hu hn
  have hdd := mul_self_nonneg (uv.dot n)
  have hee : eta * eta ≤ 1 := by nlinarith
  have hk : ¬ 1 - eta * eta * (1 - uv.dot n * uv.dot n) < 0 := by
    rw [not_lt]
    nlinarith [mul_nonneg (mul_nonneg h0 h0) hdd]
  rw [if_neg hk]
  exact Option.some_ne_none _

/-- C18: in the glass branch, at a hit where the ray is exiting
(`direction . normal > 0`) and the normal is a unit vector, the direction `d` of
the scattered ray, the output of `refract` or else the reflected direction,
has `d . normal <= 0`, for every `refr_index`; with `refr_index = 1.0` it is
`reflect(unit(direction), normal)`. -/
theorem glass_exit_direction_inward (r : Ray K) (n : Vector3d K) (ri : K)
    (hexit : 0 < r.direction.dot n) (hn : n.squaredNorm = 1) :
    glass_direction r n ri
        = (refract r.direction.normalized n ri).getD (reflect r.direction.normalized n)
      ∧ (glass_direction r n ri).dot n ≤ 0
      ∧ glass_direction r n 1.0 = reflect r.direction.normalized n := by
  have hdir : r.direction ≠ ⟨0, 0, 0⟩ := by
    intro h0
    rw [h0] at hexit
    simp [Vector3d.dot] at hexit
  have hu := normalized_unit hdir
  have hpos := normalized_dot_pos hexit
  have hshape : ∀ ri' : K, glass_direction r n ri'
      = (refract r.direction.normalized n ri').getD (reflect r.direction.normalized n) := by
    intro ri'
    rw [glass_direction_eq, if_pos hexit]
  refine ⟨hshape ri, ?_, ?_⟩
  · rw [hshape ri]
    cases h : refract r.direction.normalized n ri with
    | none =>
      simp only [Option.getD_none, reflect]
      rw [reflect_dot_normal _ hn]
      linarith
    | some d =>
      simp only [Option.getD_some]
      obtain ⟨hk, -, hdn, -⟩ := refract_unit_output hu hn h
      rw [hdn]
      have := ExactSqrt.sqrt_nonneg _ hk
      linarith
  · have h1 : (1.0 : K) = 1 := by norm_num
    rw [hshape, h1, refract_ratio_one_exit hu hn hpos.le]
    rfl

/-- C19: when `refract` succeeds on unit vectors `uv` and `n`, its output has
length 1, its component along `n` is `-sqrt(k)`, its part `r_perp` is
orthogonal to `n` and the output is `r_perp - sqrt(k) n`; and `reflect(v, n)`
has the length of `v` for every `v`. -/
theorem refract_reflect_unit_length (uv n d v : Vector3d K) (eta : K)
    (hu : uv.squaredNorm = 1) (hn : n.squaredNorm = 1) (h : refract uv n eta = some d) :
    d.norm = 1
      ∧ d.dot n = -ExactSqrt.sqrt (1 - (Vector3d.smul eta
          (uv.add (Vector3d.smul (min (uv.neg.dot n) 1) n))).squaredNorm)
      ∧ (Vector3d.smul eta (uv.add (Vector3d.smul (min (uv.neg.dot n) 1) n))).dot n = 0
      ∧ d = (Vector3d.smul eta (uv.add (Vector3d.smul (min (uv.neg.dot n) 1) n))).add
          (Vector3d.smul (-ExactSqrt.sqrt (1 - (Vector3d.smul eta
            (uv.add (Vector3d.smul (min (uv.neg.dot n) 1) n))).squaredNorm)) n)
      ∧ (reflect v n).norm = v.norm := by
  obtain ⟨-, hd, hdn, hdd⟩ := refract_unit_output hu hn h
  rw [min_neg_dot_unit hu hn, r_perp_squaredNorm eta hu hn]
  refine ⟨?_, hdn, r_perp_dot_normal uv eta hn, ?_, ?_⟩
  · unfold Vector3d.norm
    rw [hdd]
    exact sqrt_one
  · rw [hd]
    simp only [Vector3d.smul, Vector3d.add, Vector3d.sub, Vector3d.mk.injEq]
    refine ⟨?_, ?_, ?_⟩ <;> ring
  · unfold Vector3d.norm reflect
    rw [reflect_squaredNorm v hn]

/-- C20: on unit vectors `uv` and `n`, `refract` succeeds (`k >= 0`) for every
ratio with `0 <= eta <= 1`; hence in the glass branch, for `refr_index >= 1`, a
unit normal and a non-zero direction, a ray with `direction . normal <= 0` gets
the ratio `1/refr_index` and is refracted, and `refract` can fail only when
`direction . normal > 0`. -/
theorem refract_succeeds_when_entering (uv n : Vector3d K) (eta : K) (r : Ray K)
    (m : Vector3d K) (ri : K) (hu : uv.squaredNorm = 1) (hn : n.squaredNorm = 1)
    (h0 : 0 ≤ eta) (h1 : eta ≤ 1) (hm : m.squaredNorm = 1)
    (hdir : r.direction ≠ ⟨0, 0, 0⟩) (hri : 1 ≤ ri) :
    refract uv n eta ≠ none
      ∧ ¬ (1 - (Vector3d.smul eta
          (uv.add (Vector3d.smul (min (uv.neg.dot n) 1) n))).squaredNorm < 0)
      ∧ (r.direction.dot m ≤ 0 →
          glass_ref_ratio r m ri = 1.0 / ri
            ∧ refract r.direction.normalized m (glass_ref_ratio r m ri) ≠ none
            ∧ refract r.direction.normalized m (glass_ref_ratio r m ri)
              = some (glass_direction r m ri))
      ∧ (refract r.direction.normalized m (glass_ref_ratio r m ri) = none →
          0 < r.direction.dot m) := by
  have hsome := refract_unit_isSome hu hn h0 h1
  have hentry : r.direction.dot m ≤ 0 →
      glass_ref_ratio r m ri = 1.0 / ri
        ∧ refract r.direction.normalized m (glass_ref_ratio r m ri) ≠ none := by
    intro hle
    have hratio : glass_ref_ratio r m ri = 1.0 / ri := by
      unfold glass_ref_ratio
      rw [if_neg (not_lt.2 hle)]
    have hri0 : 0 < ri := lt_of_lt_of_le zero_lt_one hri
    have hone : (1.0 : K) = 1 := by norm_num
    refine ⟨hratio, ?_⟩
    rw [hratio, hone]
    exact refract_unit_isSome (normalized_unit hdir) hm (by positivity)
      ((div_le_one hri0).2 hri)
  refine ⟨hsome, ?_, ?_, ?_⟩
  · intro hk
    apply hsome
    rw [refract_eq, if_pos hk]
  · intro hle
    obtain ⟨hratio, hne⟩ := hentry hle
    refine ⟨hratio, hne, ?_⟩
    unfold glass_direction
    cases hx : refract r.direction.normalized m (glass_ref_ratio r m ri) with
    | none => exact absurd hx hne
    | some d => rfl
  · intro hnone
    by_contra hle
    exact (hentry (not_lt.1 hle)).2 hnone

/-! ## The render loop -/

/-- The sample loop adds to `pixel_color` one `ray_color` result per
iteration, each for a primary ray through the pixel `(i, j)`. -/
lemma sample_fold_spec (draws : ℕ → K) (cam : Camera K) (world : List (Sphere K))
    (w h : ℕ) (md : ℤ) (i j : ℕ) (l : List ℕ) :
    ∀ acc : Vector3d K × ℕ, ∃ samples : List (Ray K × ℕ),
      samples.length = l.length
        ∧ (∀ q ∈ samples, ∃ a b : ℕ, q.1 = camera_ray cam
            (((i : K) + draws a) / ((w : K) - 1)) (((j : K) + draws b) / ((h : K) - 1)))
        ∧ (l.foldl (fun acc _ => sample_step draws cam world w h md i j acc) acc).1
            = (samples.map fun q => (ray_color draws q.1 world md q.2).1).foldl
                Vector3d.add acc.1 := by
  induction l with
  | nil => exact fun acc => ⟨[], rfl, by simp, rfl⟩
  | cons s rest ih =>
    intro acc
    obtain ⟨samples, hlen, hrays, hsum⟩ :=
      ih (sample_step draws cam world w h md i j acc)
    refine ⟨(camera_ray cam (((i : K) + draws acc.2) / ((w : K) - 1))
        (((j : K) + draws (acc.2 + 1)) / ((h : K) - 1)), acc.2 + 1 + 1) :: samples, ?_, ?_, ?_⟩
    · simp [hlen]
    · intro q hq
      rcases List.mem_cons.1 hq with rfl | hq
      · exact ⟨_, _, rfl⟩
      · exact hrays q hq
    · rw [List.foldl_cons, hsum]
      simp only [sample_step, rand01, List.map_cons, List.foldl_cons, Int.cast_sub,
        Int.cast_natCast, Int.cast_one]

lemma pixel_samples_spec (draws : ℕ → K) (cam : Camera K) (world : List (Sphere K))
    (w h spp : ℕ) (md : ℤ) (i j p : ℕ) :
    ∃ samples : List (Ray K × ℕ),
      samples.length = spp
        ∧ (∀ q ∈ samples, ∃ a b : ℕ, q.1 = camera_ray cam
            (((i : K) + draws a) / ((w : K) - 1)) (((j : K) + draws b) / ((h : K) - 1)))
        ∧ (pixel_samples draws cam world w h spp md i j p).1
            = vector_sum (samples.map fun q => (ray_color draws q.1 world md q.2).1) := by
  obtain ⟨samples, hlen, hrays, hsum⟩ :=
    sample_fold_spec draws cam world w h md i j (List.range spp) (⟨0, 0, 0⟩, p)
  exact ⟨samples, by rw [hlen, List.length_range], hrays, hsum⟩

lemma render_pixels_cons (draws : ℕ → K) (cam : Camera K) (world : List (Sphere K))
    (w h spp : ℕ) (md : ℤ) (st : RenderState K) (q : ℕ × ℕ) (ps : List (ℕ × ℕ)) :
    render_pixels draws cam world w h spp md st (q :: ps)
      = render_pixels draws cam world w h spp md
          (pixel_step draws cam world w h spp md q.2 st q.1) ps := rfl

lemma render_pixels_append (draws : ℕ → K) (cam : Camera K) (world : List (Sphere K))
    (w h spp : ℕ) (md : ℤ) (st : RenderState K) (ps qs : List (ℕ × ℕ)) :
    render_pixels draws cam world w h spp md st (ps ++ qs)
      = render_pixels draws cam world w h spp md
          (render_pixels draws cam world w h spp md st ps) qs := by
  unfold render_pixels
  rw [List.foldl_append]

lemma render_pixels_written (draws : ℕ → K) (cam : Camera K) (world : List (Sphere K))
    (w h spp : ℕ) (md : ℤ) (ps : List (ℕ × ℕ)) :
    ∀ st : RenderState K, (render_pixels draws cam world w h spp md st ps).written
      = st.written ++ ps.map fun q => q.2 * w + q.1 := by
  induction ps with
  | nil => exact fun st => by simp [render_pixels]
  | cons q rest ih =>
    intro st
    rw [render_pixels_cons, ih]
    simp [pixel_step]

lemma render_pixels_length (draws : ℕ → K) (cam : Camera K) (world : List (Sphere K))
    (w h spp : ℕ) (md : ℤ) (ps : List (ℕ × ℕ)) :
    ∀ st : RenderState K, (render_pixels draws cam world w h spp md st ps).framebuffer.length
      = st.framebuffer.length := by
  induction ps with
  | nil => exact fun st => rfl
  | cons q rest ih =>
    intro st
    rw [render_pixels_cons, ih]
    simp [pixel_step]

/-- A cell that is the cell of none of the pixels is left as it was. -/
lemma render_pixels_untouched (draws : ℕ → K) (cam : Camera K) (world : List (Sphere K))
    (w h spp : ℕ) (md : ℤ) (k : ℕ) (ps : List (ℕ × ℕ)) :
    ∀ st : RenderState K, (k ∉ ps.map fun q => q.2 * w + q.1) →
      (render_pixels draws cam world w h spp md st ps).framebuffer[k]? = st.framebuffer[k]? := by
  induction ps with
  | nil => exact fun st _ => rfl
  | cons q rest ih =>
    intro st hk
    rw [List.map_cons, List.mem_cons, not_or] at hk
    rw [render_pixels_cons, ih _ hk.2]
    simp only [pixel_step]
    exact List.getElem?_set_ne (fun h => hk.1 h.symm)

/-- After the loop over pixels with distinct cells, the cell of each pixel
holds the mean of the samples of that pixel. -/
lemma render_pixels_touched (draws : ℕ → K) (cam : Camera K) (world : List (Sphere K))
    (w h spp : ℕ) (md : ℤ) (ps : List (ℕ × ℕ)) :
    ∀ st : RenderState K, (ps.map fun q => q.2 * w + q.1).Nodup →
      (∀ q ∈ ps, q.2 * w + q.1 < st.framebuffer.length) →
      ∀ q ∈ ps, ∃ p : ℕ,
        (render_pixels draws cam world w h spp md st ps).framebuffer[q.2 * w + q.1]?
          = some ((pixel_samples draws cam world w h spp md q.1 q.2 p).1.sdiv (spp : K)) := by
  induction ps with
  | nil => exact fun st _ _ q hq => absurd hq (List.not_mem_nil q)
  | cons q₀ rest ih =>
    intro st hnd hlt q hq
    rw [List.map_cons, List.nodup_cons] at hnd
    rw [render_pixels_cons]
    rcases List.mem_cons.1 hq with rfl | hq'
    · refine ⟨st.pos, ?_⟩
      rw [render_pixels_untouched draws cam world w h spp md _ rest _ hnd.1]
      simp only [pixel_step]
      exact List.getElem?_set_self (hlt q (List.mem_cons_self q rest))
    · refine ih _ hnd.2 ?_ q hq'
      intro q' hq''
      simp only [pixel_step, List.length_set]
      exact hlt q' (List.mem_cons_of_mem q₀ hq'')

lemma render_pixels_flatMap (draws : ℕ → K) (cam : Camera K) (world : List (Sphere K))
    (w h spp : ℕ) (md : ℤ) (f : ℕ → List (ℕ × ℕ)) (l : List ℕ) :
    ∀ st : RenderState K, render_pixels draws cam world w h spp md st (l.flatMap f)
      = l.foldl (fun st a => render_pixels draws cam world w h spp md st (f a)) st := by
  induction l with
  | nil => exact fun st => rfl
  | cons a rest ih =>
    intro st
    rw [List.flatMap_cons, render_pixels_append, ih, List.foldl_cons]

lemma render_row_eq (draws : ℕ → K) (cam : Camera K) (world : List (Sphere K))
    (w h spp : ℕ) (md : ℤ) (st : RenderState K) (j : ℕ) :
    render_row draws cam world w h spp md st j
      = render_pixels draws cam world w h spp md st ((List.range w).map fun i => (i, j)) := by
  unfold render_row render_pixels
  rw [List.foldl_map]

/-- The render loop is the pixel body run over the pixels in their order. -/
lemma render_eq (draws : ℕ → K) (cam : Camera K) (world : List (Sphere K))
    (w h spp : ℕ) (md : ℤ) (p : ℕ) :
    render draws cam world w h spp md p
      = render_pixels draws cam world w h spp md
          ⟨List.replicate (w * h) ⟨0, 0, 0⟩, [], p⟩ (pixel_order w h) := by
  unfold render pixel_order
  rw [render_pixels_flatMap]
  congr 1
  funext st j
  exact render_row_eq draws cam world w h spp md st j

/-- After the render loop, the cell of the pixel `(i, j)` holds the mean of the
samples of that pixel taken from some position of the draws. -/
lemma render_cell_mean (draws : ℕ → K) (cam : Camera K) (world : List (Sphere K))
    (w h spp : ℕ) (md : ℤ) (p i j : ℕ) (hi : i < w) (hj : j < h) :
    ∃ p' : ℕ, (render draws cam world w h spp md p).framebuffer[j * w + i]?
      = some ((pixel_samples draws cam world w h spp md i j p').1.sdiv (spp : K)) := by
  rw [render_eq]
  have hnd : ((pixel_order w h).map fun q => q.2 * w + q.1).Nodup :=
    (pixel_order_cells_perm w h).nodup_iff.2 (List.nodup_range _)
  refine render_pixels_touched draws cam world w h spp md (pixel_order w h) _ hnd ?_ (i, j)
    (mem_pixel_order.2 ⟨hi, hj⟩)
  intro q hq
  rw [List.length_replicate]
  exact cell_lt (mem_pixel_order.1 hq).1 (mem_pixel_order.1 hq).2

lemma render_written (draws : ℕ → K) (cam : Camera K) (world : List (Sphere K))
    (w h spp : ℕ) (md : ℤ) (p : ℕ) :
    (render draws cam world w h spp md p).written
      = (pixel_order w h).map fun q => q.2 * w + q.1 := by
  rw [render_eq, render_pixels_written]
  rfl

/-- C15: for `image_width`, `image_height`, `samples_per_pixel >= 1` the map
`(i, j) -> j*image_width + i` is a bijection from the pixels onto the cells
`0 .. image_width*image_height - 1`; the render loop assigns every cell of the
framebuffer exactly once; and the cell `j*image_width + i` holds the sum of
`samples_per_pixel` results of `ray_color`, each for a primary ray through the
pixel `(i, j)`, divided by `samples_per_pixel`. -/
theorem render_assigns_each_cell_once (draws : ℕ → K) (cam : Camera K)
    (world : List (Sphere K)) (w h spp : ℕ) (md : ℤ) (p : ℕ)
    (_hw : 1 ≤ w) (_hh : 1 ≤ h) (_hs : 1 ≤ spp) :
    (∀ i j, i < w → j < h → j * w + i < w * h)
      ∧ (∀ i j i' j', i < w → j < h → i' < w → j' < h →
          j * w + i = j' * w + i' → i = i' ∧ j = j')
      ∧ (∀ k, k < w * h → ∃ i j, i < w ∧ j < h ∧ k = j * w + i)
      ∧ (render draws cam world w h spp md p).framebuffer.length = w * h
      ∧ (render draws cam world w h spp md p).written.Perm (List.range (w * h))
      ∧ ∀ i j, i < w → j < h → ∃ samples : List (Ray K × ℕ),
          samples.length = spp
            ∧ (∀ q ∈ samples, ∃ a b : ℕ, q.1 = camera_ray cam
                (((i : K) + draws a) / ((w : K) - 1)) (((j : K) + draws b) / ((h : K) - 1)))
            ∧ (render draws cam world w h spp md p).framebuffer[j * w + i]?
                = some ((vector_sum
                    (samples.map fun q => (ray_color draws q.1 world md q.2).1)).sdiv
                      (spp : K)) := by
  refine ⟨fun i j hi hj => cell_lt hi hj, fun i j i' j' hi _ hi' _ he => cell_inj hi hi' he,
    fun k hk => cell_surj hk, ?_, ?_, ?_⟩
  · rw [render_eq, render_pixels_length, List.length_replicate]
  · rw [render_written]
    exact pixel_order_cells_perm w h
  · intro i j hi hj
    obtain ⟨p', hp'⟩ := render_cell_mean draws cam world w h spp md p i j hi hj
    obtain ⟨samples, hlen, hrays, hsum⟩ := pixel_samples_spec draws cam world w h spp md i j p'
    exact ⟨samples, hlen, hrays, by rw [hp', hsum]⟩

/-! ## The encoder -/

lemma sqrt_zero : ExactSqrt.sqrt (0 : K) = 0 := sqrt_eq_of_mul_self le_rfl (mul_zero 0)

/-- The encoded channel in terms of `q = sqrt(c)`. -/
lemma encode_channel_eq [FloorRing K] {c : K} (hc : 0 ≤ c) :
    encode_channel c = Int.floor (255.999 * min (ExactSqrt.sqrt c) 0.999) := by
  have hq := ExactSqrt.sqrt_nonneg c hc
  unfold encode_channel
  rw [clamp_of_nonneg hq, to_int_of_nonneg]
  exact mul_nonneg (by norm_num) (le_min hq (by norm_num))

lemma encode_channel_bounds [FloorRing K] {c : K} (hc : 0 ≤ c) :
    0 ≤ encode_channel c ∧ encode_channel c ≤ 255
      ∧ encode_channel c = min (to_int (255.999 * ExactSqrt.sqrt c)) 255 := by
  have hq := ExactSqrt.sqrt_nonneg c hc
  have hx : (0 : K) ≤ 255.999 * ExactSqrt.sqrt c := mul_nonneg (by norm_num) hq
  have hm : (0 : K) ≤ 255.999 * min (ExactSqrt.sqrt c) 0.999 :=
    mul_nonneg (by norm_num) (le_min hq (by norm_num))
  have hle : Int.floor ((255.999 : K) * min (ExactSqrt.sqrt c) 0.999) ≤ 255 := by
    rw [← floor_top_channel (K := K)]
    exact Int.floor_le_floor (mul_le_mul_of_nonneg_left (min_le_right _ _) (by norm_num))
  rw [encode_channel_eq hc, to_int_of_nonneg hx]
  refine ⟨Int.floor_nonneg.2 hm, hle, ?_⟩
  rcases le_or_lt (ExactSqrt.sqrt c) 0.999 with h | h
  · rw [min_eq_left h] at hle ⊢
    exact (min_eq_left hle).symm
  · rw [min_eq_right h.le, floor_top_channel]
    have : (255 : ℤ) ≤ Int.floor ((255.999 : K) * ExactSqrt.sqrt c) := by
      rw [← floor_top_channel (K := K)]
      exact Int.floor_le_floor (mul_le_mul_of_nonneg_left h.le (by norm_num))
    exact (min_eq_right this).symm

lemma encode_channel_zero [FloorRing K] : encode_channel (0 : K) = 0 := by
  rw [encode_channel_eq le_rfl, sqrt_zero, min_eq_left (by norm_num)]
  simp

/-- C16: for a channel `c >= 0` the encoded value
`trunc(255.999 * clamp(sqrt(c), 0, 0.999))` is an integer in `[0, 255]` and
equals `min(trunc(255.999 * sqrt(c)), 255)`; `c = 0` is encoded as `0`, and a
framebuffer whose cells are all zero is written as pixel lines `0 0 0`. -/
theorem encode_channel_range [FloorRing K] (c : K) (hc : 0 ≤ c) :
    (0 ≤ encode_channel c ∧ encode_channel c ≤ 255)
      ∧ encode_channel c = min (to_int (255.999 * ExactSqrt.sqrt c)) 255
      ∧ encode_channel (0 : K) = 0
      ∧ ∀ (framebuffer : List (Vector3d K)) (w h : ℕ),
          (∀ v ∈ framebuffer, v = ⟨0, 0, 0⟩) → framebuffer.length = w * h →
            (write_ppm framebuffer w h).length = w * h
              ∧ ∀ px ∈ write_ppm framebuffer w h, px = (0, 0, 0) := by
  obtain ⟨h0, h255, hmin⟩ := encode_channel_bounds hc
  refine ⟨⟨h0, h255⟩, hmin, encode_channel_zero, ?_⟩
  intro framebuffer w h hzero hlen
  constructor
  · unfold write_ppm
    rw [flatMap_rows_length, List.length_reverse, List.length_range, Nat.mul_comm]
  · intro px hpx
    unfold write_ppm at hpx
    simp only [List.mem_flatMap, List.mem_map] at hpx
    obtain ⟨j, -, i, -, rfl⟩ := hpx
    have hcell : framebuffer.getD (j * w + i) ⟨0, 0, 0⟩ = ⟨0, 0, 0⟩ := by
      rw [List.getD_eq_getElem?_getD]
      cases hget : framebuffer[j * w + i]? with
      | none => rfl
      | some v => exact hzero v (List.getElem?_mem hget)
    rw [hcell]
    simp only [encode_pixel, encode_channel_zero]

/-! ## The range of the radiance -/

lemma inUnitCube_background (r : Ray K) : InUnitCube (background r) := by
  obtain ⟨h1, h2⟩ := normalized_y_bounds r.direction
  simp only [InUnitCube, background, Vector3d.add, Vector3d.smul]
  norm_num
  refine ⟨⟨?_, ?_⟩, ⟨?_, ?_⟩⟩ <;> linarith

lemma scan_hit_mem (r : Ray K) (world : List (Sphere K)) (obj : Sphere K)
    (ho : (scan r world).hit_obj = some obj) : obj ∈ world := by
  have h := isNearest_scan r world
  unfold IsNearest at h
  rw [ho] at h
  exact h.1

lemma ray_color_inUnitCube_aux (world : List (Sphere K))
    (hcol : ∀ s ∈ world, InUnitCube s.color) (draws : ℕ → K) (m : ℕ) :
    ∀ (depth : ℤ), depth.toNat = m → ∀ (r : Ray K) (i : ℕ),
      InUnitCube (ray_color draws r world depth i).1 := by
  induction m with
  | zero =>
    intro depth hdep r i
    have h0 : depth ≤ 0 := Int.toNat_eq_zero.1 hdep
    rw [ray_color]
    simp only [h0, if_true]
    exact inUnitCube_zero
  | succ m ih =>
    intro depth hdep r i
    have hd : 1 ≤ depth := by omega
    have hrec : ∀ (r' : Ray K) (j : ℕ), InUnitCube (ray_color draws r' world (depth - 1) j).1 :=
      ih (depth - 1) (by omega)
    cases ho : (scan r world).hit_obj with
    | none =>
      rw [ray_color_no_hit _ _ _ _ _ hd ho]
      exact inUnitCube_background r
    | some obj =>
      have hc := hcol obj (scan_hit_mem r world obj ho)
      rw [ray_color_hit _ _ _ _ _ obj hd ho]
      cases obj.is_metal
      · cases obj.is_glass
        · simp only [Bool.false_eq_true, if_false]
          exact inUnitCube_half (inUnitCube_cwiseProduct hc (hrec _ _))
        · simp only [Bool.false_eq_true, if_false, if_true]
          exact hrec _ _
      · simp only [if_true]
        exact inUnitCube_cwiseProduct hc (hrec _ _)

lemma ray_color_inUnitCube (world : List (Sphere K)) (hcol : ∀ s ∈ world, InUnitCube s.color)
    (draws : ℕ → K) (r : Ray K) (depth : ℤ) (i : ℕ) :
    InUnitCube (ray_color draws r world depth i).1 :=
  ray_color_inUnitCube_aux world hcol draws depth.toNat depth rfl r i

/-- C17: when every colour of the scene has its components in `[0,1]`, every
component of `ray_color` lies in `[0,1]`, for every ray, depth and sequence of
draws; every cell of the framebuffer rendered with `samples_per_pixel >= 1`
lies in `[0,1]^3`; and with `depth >= 1` the radiance of a ray whose nearest hit
is a diffuse sphere of colour `col` is component-wise at most `0.5 * col`. -/
theorem radiance_in_unit_cube (world : List (Sphere K))
    (hcol : ∀ s ∈ world, InUnitCube s.color) (draws : ℕ → K) (r : Ray K) (depth : ℤ) (i : ℕ)
    (cam : Camera K) (w h spp : ℕ) (md : ℤ) (p : ℕ) (hs : 1 ≤ spp) :
    InUnitCube (ray_color draws r world depth i).1
      ∧ (∀ k, k < w * h → ∃ v, (render draws cam world w h spp md p).framebuffer[k]? = some v
          ∧ InUnitCube v)
      ∧ ∀ S, 1 ≤ depth → (scan r world).hit_obj = some S → S.is_metal = false →
          S.is_glass = false →
            (ray_color draws r world depth i).1.x ≤ 0.5 * S.color.x
              ∧ (ray_color draws r world depth i).1.y ≤ 0.5 * S.color.y
              ∧ (ray_color draws r world depth i).1.z ≤ 0.5 * S.color.z := by
  refine ⟨ray_color_inUnitCube world hcol draws r depth i, ?_, ?_⟩
  · intro k hk
    obtain ⟨i', j', hi', hj', rfl⟩ := cell_surj hk
    obtain ⟨p', hp'⟩ := render_cell_mean draws cam world w h spp md p i' j' hi' hj'
    obtain ⟨samples, hlen, -, hsum⟩ := pixel_samples_spec draws cam world w h spp md i' j' p'
    refine ⟨_, hp', ?_⟩
    rw [hsum]
    have hmean := inUnitCube_mean (samples.map fun q => (ray_color draws q.1 world md q.2).1)
      (by
        intro v hv
        obtain ⟨q, -, rfl⟩ := List.mem_map.1 hv
        exact ray_color_inUnitCube world hcol draws q.1 md q.2)
      (by rw [List.length_map, hlen]; exact hs)
    rw [List.length_map, hlen] at hmean
    exact hmean
  · intro S hd hS hm hg
    obtain ⟨⟨cx0, -⟩, ⟨cy0, -⟩, ⟨cz0, -⟩⟩ := hcol S (scan_hit_mem r world S hS)
    rw [ray_color_hit draws r world depth i S hd hS]
    simp only [hm, hg, Bool.false_eq_true, if_false, Vector3d.smul, Vector3d.cwiseProduct]
    obtain ⟨⟨-, dx1⟩, ⟨-, dy1⟩, ⟨-, dz1⟩⟩ := ray_color_inUnitCube world hcol draws
      ⟨r.at ((scan r world).closest_t.untop' 0),
        diffuse_direction draws (r.at ((scan r world).closest_t.untop' 0))
          (scan r world).hit_normal i⟩ (depth - 1) (i + 3)
    refine ⟨?_, ?_, ?_⟩
    · exact mul_le_mul_of_nonneg_left (mul_le_of_le_one_right cx0 dx1) (by norm_num)
    · exact mul_le_mul_of_nonneg_left (mul_le_of_le_one_right cy0 dy1) (by norm_num)
    · exact mul_le_mul_of_nonneg_left (mul_le_of_le_one_right cz0 dz1) (by norm_num)

/-! ## Witnesses of the material, render and encoder theorems -/

lemma scan_front_single_hit (col : Vector3d K) (ri : K) (m g : Bool) :
    (scan forward_ray [front_sphere col ri m g]).hit_obj = some (front_sphere col ri m g) := by
  rw [scan_front_single]

/-- The glass branch for the forward ray on the front sphere made of glass. -/
theorem glass_branch_refract_or_reflect_witness :
    (1 : ℤ) ≤ 1
      ∧ (scan forward_ray [front_sphere (⟨0.8, 0.8, 0.8⟩ : Vector3d ℝ) 1.5 false true]).hit_obj
          = some (front_sphere ⟨0.8, 0.8, 0.8⟩ 1.5 false true)
      ∧ (front_sphere (⟨0.8, 0.8, 0.8⟩ : Vector3d ℝ) 1.5 false true).is_metal = false
      ∧ (front_sphere (⟨0.8, 0.8, 0.8⟩ : Vector3d ℝ) 1.5 false true).is_glass = true
      ∧ reflect (⟨0, 0, -1⟩ : Vector3d ℝ) ⟨0, 0, 1⟩
          = ⟨0 - 2 * (⟨0, 0, -1⟩ : Vector3d ℝ).dot ⟨0, 0, 1⟩ * 0,
            0 - 2 * (⟨0, 0, -1⟩ : Vector3d ℝ).dot ⟨0, 0, 1⟩ * 0,
            -1 - 2 * (⟨0, 0, -1⟩ : Vector3d ℝ).dot ⟨0, 0, 1⟩ * 1⟩ :=
  ⟨le_rfl, scan_front_single_hit _ _ _ _, rfl, rfl,
    (glass_branch_refract_or_reflect ⟨0, 0, -1⟩ ⟨0, 0, 1⟩ ⟨0, 0, -1⟩ 1 zero_draws forward_ray
      [front_sphere (⟨0.8, 0.8, 0.8⟩ : Vector3d ℝ) 1.5 false true] 1 0
      (front_sphere ⟨0.8, 0.8, 0.8⟩ 1.5 false true) le_rfl (scan_front_single_hit _ _ _ _)
      rfl rfl).2.2.1⟩

/-- The attenuation for the forward ray on the diffuse front sphere at depth 2. -/
theorem ray_color_attenuation_witness :
    (1 : ℤ) ≤ 2
      ∧ (scan forward_ray [front_sphere (⟨0.1, 0.2, 0.5⟩ : Vector3d ℝ) 1 false false]).hit_obj
          = some (front_sphere ⟨0.1, 0.2, 0.5⟩ 1 false false)
      ∧ ∃ (t : ℝ) (A : Vector3d ℝ) (scattered : Ray ℝ) (j : ℕ),
          (scan forward_ray
              [front_sphere (⟨0.1, 0.2, 0.5⟩ : Vector3d ℝ) 1 false false]).closest_t
            = ((t : ℝ) : WithTop ℝ)
          ∧ scattered.origin = (forward_ray (K := ℝ)).at t
          ∧ ray_color zero_draws forward_ray
              [front_sphere (⟨0.1, 0.2, 0.5⟩ : Vector3d ℝ) 1 false false] 2 0
            = (A.cwiseProduct (ray_color zero_draws scattered
                [front_sphere (⟨0.1, 0.2, 0.5⟩ : Vector3d ℝ) 1 false false] (2 - 1) j).1,
              (ray_color zero_draws scattered
                [front_sphere (⟨0.1, 0.2, 0.5⟩ : Vector3d ℝ) 1 false false] (2 - 1) j).2) :=
  ⟨by decide, scan_front_single_hit _ _ _ _,
    (ray_color_attenuation zero_draws forward_ray
      [front_sphere (⟨0.1, 0.2, 0.5⟩ : Vector3d ℝ) 1 false false] 2 0
      (front_sphere ⟨0.1, 0.2, 0.5⟩ 1 false false) (by decide)
      (scan_front_single_hit _ _ _ _)).imp fun _ ht => ht.imp fun _ hA => hA.imp fun _ hs =>
        hs.imp fun _ hj => ⟨hj.1, hj.2.1, hj.2.2.1⟩⟩

/-- The recursion bound for the scene of `main` at its `max_depth = 25`. -/
theorem ray_color_recursion_bound_witness :
    (0 : ℤ) ≤ 25
      ∧ ((ray_color_counted (zero_draws (K := ℝ)) forward_ray main_world 25 0).2 : ℤ) ≤ 25 :=
  ⟨by decide, (ray_color_recursion_bound zero_draws forward_ray main_world 25 0 (by decide)).2.1⟩

/-- The front sphere as metal with `reflectivity` 0 and with `reflectivity` 0.8. -/
theorem ray_color_ignores_reflectivity_witness :
    List.Forall₂ SameButReflectivity
        [front_sphere (⟨0.8, 0.6, 0.2⟩ : Vector3d ℝ) 1 true false]
        [front_sphere_refl (⟨0.8, 0.6, 0.2⟩ : Vector3d ℝ) 0.8 1 true false]
      ∧ ray_color zero_draws forward_ray
          [front_sphere (⟨0.8, 0.6, 0.2⟩ : Vector3d ℝ) 1 true false] 3 0
        = ray_color zero_draws forward_ray
          [front_sphere_refl (⟨0.8, 0.6, 0.2⟩ : Vector3d ℝ) 0.8 1 true false] 3 0 :=
  ⟨front_sameBut _ _ _ _ _,
    (ray_color_ignores_reflectivity _ _ (front_sameBut _ _ _ _ _) zero_draws forward_ray 3 0).1⟩

/-- The render loop of `main`: 400 x 225 pixels, 50 samples, depth 25. -/
theorem render_assigns_each_cell_once_witness :
    1 ≤ 400 ∧ 1 ≤ 225 ∧ 1 ≤ 50
      ∧ (render (zero_draws (K := ℝ)) main_camera main_world 400 225 50 25 0).written.Perm
          (List.range (400 * 225)) :=
  ⟨by decide, by decide, by decide,
    (render_assigns_each_cell_once zero_draws main_camera main_world 400 225 50 25 0
      (by decide) (by decide) (by decide)).2.2.2.2.1⟩

/-- The encoding of the channel value `0.25`. -/
theorem encode_channel_range_witness :
    (0 : ℝ) ≤ 0.25 ∧ (0 ≤ encode_channel (0.25 : ℝ) ∧ encode_channel (0.25 : ℝ) ≤ 255) :=
  ⟨by norm_num, (encode_channel_range (0.25 : ℝ) (by norm_num)).1⟩

/-- The radiance of the forward ray in the scene of `main`. -/
theorem radiance_in_unit_cube_witness :
    (∀ s ∈ (main_world : List (Sphere ℝ)), InUnitCube s.color) ∧ 1 ≤ 50
      ∧ InUnitCube (ray_color zero_draws forward_ray (main_world : List (Sphere ℝ)) 25 0).1 :=
  ⟨main_world_colors, by decide,
    (radiance_in_unit_cube main_world main_world_colors zero_draws forward_ray 25 0
      main_camera 400 225 50 25 0 (by decide)).1⟩

/-- The exit hit of the scenario with `refr_index = 1.5`. -/
theorem glass_exit_direction_inward_witness :
    0 < (inner_ray (K := ℝ)).direction.dot ⟨0, 0, -1⟩
      ∧ (⟨0, 0, -1⟩ : Vector3d ℝ).squaredNorm = 1
      ∧ (glass_direction (inner_ray (K := ℝ)) ⟨0, 0, -1⟩ 1.5).dot ⟨0, 0, -1⟩ ≤ 0 :=
  ⟨inner_exit_dot, neg_unit_z_squaredNorm,
    (glass_exit_direction_inward inner_ray ⟨0, 0, -1⟩ 1.5 inner_exit_dot
      neg_unit_z_squaredNorm).2.1⟩

/-- The entry refraction of the scenario with ratio 1. -/
theorem refract_reflect_unit_length_witness :
    (⟨0, 0, -1⟩ : Vector3d ℝ).squaredNorm = 1 ∧ (⟨0, 0, 1⟩ : Vector3d ℝ).squaredNorm = 1
      ∧ refract (⟨0, 0, -1⟩ : Vector3d ℝ) ⟨0, 0, 1⟩ 1 = some ⟨0, 0, -1⟩
      ∧ (⟨0, 0, -1⟩ : Vector3d ℝ).norm = 1 :=
  ⟨neg_unit_z_squaredNorm, unit_z_squaredNorm,
    refract_ratio_one_entry neg_unit_z_squaredNorm unit_z_squaredNorm
      (by simp only [Vector3d.dot]; norm_num),
    (refract_reflect_unit_length ⟨0, 0, -1⟩ ⟨0, 0, 1⟩ ⟨0, 0, -1⟩ ⟨0, 0, -1⟩ 1
      neg_unit_z_squaredNorm unit_z_squaredNorm
      (refract_ratio_one_entry neg_unit_z_squaredNorm unit_z_squaredNorm
        (by simp only [Vector3d.dot]; norm_num))).1⟩

/-- The entry of the forward ray into glass of index 1.5. -/
theorem refract_succeeds_when_entering_witness :
    (⟨0, 0, -1⟩ : Vector3d ℝ).squaredNorm = 1 ∧ (⟨0, 0, 1⟩ : Vector3d ℝ).squaredNorm = 1
      ∧ (0 : ℝ) ≤ 0.5 ∧ (0.5 : ℝ) ≤ 1
      ∧ (forward_ray (K := ℝ)).direction ≠ ⟨0, 0, 0⟩ ∧ (1 : ℝ) ≤ 1.5
      ∧ refract (⟨0, 0, -1⟩ : Vector3d ℝ) ⟨0, 0, 1⟩ 0.5 ≠ none :=
  ⟨neg_unit_z_squaredNorm, unit_z_squaredNorm, by norm_num, by norm_num, forward_direction_ne,
    by norm_num,
    (refract_succeeds_when_entering ⟨0, 0, -1⟩ ⟨0, 0, 1⟩ 0.5 forward_ray ⟨0, 0, 1⟩ 1.5
      neg_unit_z_squaredNorm unit_z_squaredNorm (by norm_num) (by norm_num)
      unit_z_squaredNorm forward_direction_ne (by norm_num)).1⟩

/-! ## The order of the scene along the traced path -/

/-- The scan of a ray without a tie at its nearest hit does not depend on the
order of the scene. -/
lemma scan_perm_at {world world' : List (Sphere K)} (r : Ray K) (htie : NoTieAt r world)
    (hperm : world.Perm world') : scan r world = scan r world' := by
  have h := isNearest_scan r world
  have h' := isNearest_scan r world'
  unfold IsNearest at h h'
  rcases hst : scan r world with ⟨ct, ho, hn⟩
  rcases hst' : scan r world' with ⟨ct', ho', hn'⟩
  rw [hst] at h
  rw [hst'] at h'
  cases ho with
  | none =>
    cases ho' with
    | none =>
      simp only at h h'
      rw [h.1, h.2.1, h'.1, h'.2.1]
    | some obj' =>
      simp only at h h'
      obtain ⟨hmem, t, n, hhit, -⟩ := h'
      rw [h.2.2 obj' (hperm.mem_iff.2 hmem)] at hhit
      exact absurd hhit (by simp)
  | some obj =>
    cases ho' with
    | none =>
      simp only at h h'
      obtain ⟨hmem, t, n, hhit, -⟩ := h
      rw [h'.2.2 obj (hperm.mem_iff.1 hmem)] at hhit
      exact absurd hhit (by simp)
    | some obj' =>
      simp only at h h'
      obtain ⟨hmem, t, n, hhit, hct, hnn, hmin⟩ := h
      obtain ⟨hmem', t', n', hhit', hct', hnn', hmin'⟩ := h'
      have htt : t = t' :=
        le_antisymm (hmin obj' (hperm.mem_iff.2 hmem') t' n' hhit')
          (hmin' obj (hperm.mem_iff.1 hmem) t n hhit)
      subst htt
      have hobj : obj = obj' :=
        htie obj obj' t n n' hmem (hperm.mem_iff.2 hmem') hhit hhit' hmin
      subst hobj
      rw [hhit] at hhit'
      simp only [Option.some.injEq, Prod.mk.injEq, true_and] at hhit'
      rw [hct, hct', hnn, hnn', hhit']

/-- With `depth >= 1` and a nearest hit `obj`, the path is the ray followed by
the path of the scattered ray of the branch of `obj`. -/
lemma ray_path_hit (draws : ℕ → K) (r : Ray K) (world : List (Sphere K)) (depth : ℤ)
    (i : ℕ) (obj : Sphere K) (hd : 1 ≤ depth) (ho : (scan r world).hit_obj = some obj) :
    ray_path draws r world depth i =
      r :: if obj.is_metal then
          ray_path draws ⟨r.at ((scan r world).closest_t.untop' 0),
            metal_direction draws r (scan r world).hit_normal i⟩ world (depth - 1) (i + 3)
        else if obj.is_glass then
          ray_path draws ⟨r.at ((scan r world).closest_t.untop' 0),
            glass_direction r (scan r world).hit_normal obj.refr_index⟩ world (depth - 1) i
        else
          ray_path draws ⟨r.at ((scan r world).closest_t.untop' 0),
            diffuse_direction draws (r.at ((scan r world).closest_t.untop' 0))
              (scan r world).hit_normal i⟩ world (depth - 1) (i + 3) := by
  have hd' : ¬ depth ≤ 0 := by omega
  conv_lhs => rw [ray_path]
  simp only [hd', if_false, ho]
  cases obj.is_metal
  · cases obj.is_glass
    · simp only [Bool.false_eq_true, if_false]
    · simp only [Bool.false_eq_true, if_false, if_true]
  · simp only [if_true]

lemma ray_path_no_hit (draws : ℕ → K) (r : Ray K) (world : List (Sphere K)) (depth : ℤ)
    (i : ℕ) (hd : 1 ≤ depth) (ho : (scan r world).hit_obj = none) :
    ray_path draws r world depth i = [r] := by
  have hd' : ¬ depth ≤ 0 := by omega
  rw [ray_path]
  simp only [hd', if_false, ho]

lemma ray_path_head (draws : ℕ → K) (r : Ray K) (world : List (Sphere K)) (depth : ℤ)
    (i : ℕ) (hd : 1 ≤ depth) : r ∈ ray_path draws r world depth i := by
  cases ho : (scan r world).hit_obj with
  | none =>
    rw [ray_path_no_hit draws r world depth i hd ho]
    exact List.mem_singleton_self r
  | some obj =>
    rw [ray_path_hit draws r world depth i obj hd ho]
    exact List.mem_cons_self _ _

lemma ray_color_perm_path_aux {world world' : List (Sphere K)} (hperm : world.Perm world')
    (draws : ℕ → K) (m : ℕ) :
    ∀ (depth : ℤ), depth.toNat = m → ∀ (r : Ray K) (i : ℕ),
      (∀ r' ∈ ray_path draws r world depth i, NoTieAt r' world) →
        ray_color draws r world depth i = ray_color draws r world' depth i := by
  induction m with
  | zero =>
    intro depth hdep r i _
    have h0 : depth ≤ 0 := Int.toNat_eq_zero.1 hdep
    rw [ray_color, ray_color]
    simp [h0]
  | succ m ih =>
    intro depth hdep r i hpath
    have hd : 1 ≤ depth := by omega
    have hscan : scan r world = scan r world' :=
      scan_perm_at r (hpath r (ray_path_head draws r world depth i hd)) hperm
    cases ho : (scan r world).hit_obj with
    | none =>
      have ho' : (scan r world').hit_obj = none := by rw [← hscan, ho]
      rw [ray_color_no_hit _ _ _ _ _ hd ho, ray_color_no_hit _ _ _ _ _ hd ho']
    | some obj =>
      have ho' : (scan r world').hit_obj = some obj := by rw [← hscan, ho]
      rw [ray_path_hit draws r world depth i obj hd ho] at hpath
      rw [ray_color_hit _ _ _ _ _ obj hd ho, ray_color_hit _ _ _ _ _ obj hd ho', ← hscan]
      cases hm : obj.is_metal
      · cases hg : obj.is_glass
        · simp only [hm, hg, Bool.false_eq_true, if_false] at hpath ⊢
          rw [ih (depth - 1) (by omega) _ _ fun r' hr' => hpath r' (List.mem_cons_of_mem _ hr')]
        · simp only [hm, hg, Bool.false_eq_true, if_false, if_true] at hpath ⊢
          rw [ih (depth - 1) (by omega) _ _ fun r' hr' => hpath r' (List.mem_cons_of_mem _ hr')]
      · simp only [hm, if_true] at hpath ⊢
        rw [ih (depth - 1) (by omega) _ _ fun r' hr' => hpath r' (List.mem_cons_of_mem _ hr')]

/-- C8, amended: for every scene, permutation of it, ray, depth and sequence
of draws, when none of the rays that `ray_color` tests against the scene (the
ray and the scattered rays of its recursive calls) is hit at its nearest
`t_hit` by two different spheres, `ray_color` returns the same radiance, and
leaves the sequence of draws at the same position, on the scene and on the
permuted scene. -/
theorem ray_color_perm_of_path_noTie (world world' : List (Sphere K))
    (hperm : world.Perm world') (draws : ℕ → K) (r : Ray K) (depth : ℤ) (i : ℕ)
    (hpath : ∀ r' ∈ ray_path draws r world depth i, NoTieAt r' world) :
    ray_color draws r world depth i = ray_color draws r world' depth i :=
  ray_color_perm_path_aux hperm draws depth.toNat depth rfl r i hpath

lemma hit_sphere_of_disc_neg {s : Sphere K} {r : Ray K} (h : spec_disc s r < 0) (t_min : K)
    (t_max : WithTop K) : hit_sphere s r t_min t_max = none := by
  rw [hit_sphere_unfold, if_pos h]

/-- In the scene of `main` the forward ray hits the diffuse sphere in front of
the camera and no other sphere. -/
lemma main_world_forward_hits (s : Sphere K) (hs : s ∈ (main_world : List (Sphere K)))
    (t : K) (n : Vector3d K) (h : hit_sphere s forward_ray 1e-3 ⊤ = some (t, n)) :
    s = front_sphere ⟨0.1, 0.2, 0.5⟩ 1.0 false false := by
  rw [main_world_eq] at hs
  simp only [List.mem_cons, List.mem_singleton, List.not_mem_nil, or_false] at hs
  rcases hs with rfl | rfl | rfl | rfl
  · rw [hit_sphere_of_disc_neg main_ground_forward_disc] at h
    exact absurd h (by simp)
  · rfl
  · rw [hit_sphere_of_disc_neg main_glass_forward_disc] at h
    exact absurd h (by simp)
  · rw [hit_sphere_of_disc_neg main_metal_forward_disc] at h
    exact absurd h (by simp)

/-- In the scene of `main` the ray that leaves the front sphere along its
normal misses every sphere. -/
lemma main_world_bounce_miss (s : Sphere K) (hs : s ∈ (main_world : List (Sphere K))) :
    hit_sphere s bounce_ray 1e-3 ⊤ = none := by
  rw [main_world_eq] at hs
  simp only [List.mem_cons, List.mem_singleton, List.not_mem_nil, or_false] at hs
  rcases hs with rfl | rfl | rfl | rfl
  · exact hit_sphere_of_disc_neg main_ground_bounce_disc _ _
  · exact front_bounce_miss _ _ _ _
  · exact hit_sphere_of_disc_neg main_glass_bounce_disc _ _
  · exact hit_sphere_of_disc_neg main_metal_bounce_disc _ _

lemma main_world_forward_noTie : NoTieAt forward_ray (main_world : List (Sphere K)) := by
  intro s₁ s₂ t n₁ n₂ hm₁ hm₂ h₁ h₂ _
  rw [main_world_forward_hits s₁ hm₁ t n₁ h₁, main_world_forward_hits s₂ hm₂ t n₂ h₂]

lemma main_world_bounce_noTie : NoTieAt bounce_ray (main_world : List (Sphere K)) := by
  intro s₁ s₂ t n₁ n₂ hm₁ _ h₁ _ _
  rw [main_world_bounce_miss s₁ hm₁] at h₁
  exact absurd h₁ (by simp)

lemma scan_main_world_forward :
    scan forward_ray (main_world : List (Sphere K))
      = ⟨((0.5 : K) : WithTop K), some (front_sphere ⟨0.1, 0.2, 0.5⟩ 1.0 false false),
          ⟨0, 0, 1⟩⟩ := by
  rw [main_world_eq]
  simp only [scan, List.foldl_cons, List.foldl_nil, scan_step]
  rw [hit_sphere_of_disc_neg main_ground_forward_disc]
  simp only
  rw [front_forward_hit_top]
  simp only
  rw [hit_sphere_of_disc_neg main_glass_forward_disc]
  simp only
  rw [hit_sphere_of_disc_neg main_metal_forward_disc]

lemma scan_main_world_bounce :
    (scan bounce_ray (main_world : List (Sphere K))).hit_obj = none := by
  have h : scan bounce_ray (main_world : List (Sphere K)) = ⟨⊤, none, ⟨0, 0, 0⟩⟩ :=
    foldl_scan_step_all_miss bounce_ray main_world _ main_world_bounce_miss
  rw [h]

/-- The rays that `ray_color` tests for the forward ray in the scene of `main`
at depth 2 with draws that are all zero. -/
lemma ray_path_main_world_forward :
    ray_path zero_draws forward_ray (main_world : List (Sphere K)) 2 0
      = [forward_ray, bounce_ray] := by
  have hray : (⟨(forward_ray (K := K)).at 0.5,
      diffuse_direction zero_draws ((forward_ray (K := K)).at 0.5) ⟨0, 0, 1⟩ 0⟩ : Ray K)
      = bounce_ray := by
    simp only [forward_ray, bounce_ray, zero_draws, diffuse_direction, Ray.at, Vector3d.add,
      Vector3d.sub, Vector3d.smul]
    norm_num
  have ho : (scan forward_ray (main_world : List (Sphere K))).hit_obj
      = some (front_sphere ⟨0.1, 0.2, 0.5⟩ 1.0 false false) := by
    rw [scan_main_world_forward]
  rw [ray_path_hit zero_draws forward_ray main_world 2 0 _ (by norm_num) ho,
    scan_main_world_forward]
  simp only [front_sphere, Bool.false_eq_true, if_false, WithTop.untop'_coe]
  rw [hray, ray_path_no_hit zero_draws bounce_ray main_world (2 - 1) (0 + 3) (by norm_num)
    scan_main_world_bounce]

lemma main_world_forward_path_noTie :
    ∀ r' ∈ ray_path zero_draws forward_ray (main_world : List (Sphere K)) 2 0,
      NoTieAt r' main_world := by
  intro r' hr'
  rw [ray_path_main_world_forward] at hr'
  simp only [List.mem_cons, List.mem_singleton, List.not_mem_nil, or_false] at hr'
  rcases hr' with rfl | rfl
  · exact main_world_forward_noTie
  · exact main_world_bounce_noTie

/-- The scene of `main` in reverse order, for the forward ray at depth 2. -/
theorem ray_color_perm_of_path_noTie_witness :
    (main_world : List (Sphere ℝ)).Perm main_world.reverse
      ∧ (∀ r' ∈ ray_path zero_draws forward_ray (main_world : List (Sphere ℝ)) 2 0,
          NoTieAt r' main_world)
      ∧ ray_color zero_draws forward_ray (main_world : List (Sphere ℝ)) 2 0
        = ray_color zero_draws forward_ray (main_world : List (Sphere ℝ)).reverse 2 0 :=
  ⟨(List.reverse_perm _).symm, main_world_forward_path_noTie,
    ray_color_perm_of_path_noTie main_world main_world.reverse (List.reverse_perm _).symm
      zero_draws forward_ray 2 0 main_world_forward_path_noTie⟩

end Proofs

end RayTracer
